import Mathlib

/-!
# Binary calendar: a bitmask-per-month store of marked days

Shallow embedding of `binary_calendar.go` (package `seinfeld`) and the properties of
its five operations `Mark`, `Unmark`, `IsMarked`, `GetYear`, `GetMonth`.

Modelling conventions.

* A `time.Time` argument is represented by the three fields the store reads from it,
  `Year()`, `Month()` and `Day()` (structure `Date`). Go's `int` is `Int`.
* `uint32` values are natural numbers; the only operation of the source that can leave
  the 32-bit range is the shift `1 << n`, which is reduced modulo `2^32` (`shl32`).
* The field `marked : map[int16][]uint32` is a function from keys to optional rows. A key
  without a row is an absent key. Rows are held by value: every key owns its own row, as
  in the source, where the only row ever stored is a fresh `make([]uint32, 12)`. No
  method stores a nil slice, so the test `y == nil` of `GetYear` and `GetMonth` is the
  test for an absent key.
* An index expression out of range panics in Go; the operation then returns `none`.
* `time.Date` normalises a day beyond the end of the month into the following month
  ("October 32 converts to November 1"); `timeDate` models this for the day numbers that
  `formatDays` can pass (1 to 32). The real function wraps around when the year leaves
  the range of the 64-bit second counter of `time.Time`; `timeDate` is exact for the
  years of `InTimeRange` only, and every statement about the dates returned for a year
  chosen by the caller assumes that range.
* `math.Floor(math.Log2(float64(days)))` is modelled by `Nat.log2 days`, the index of the
  highest set bit, which is what the source comment says the expression computes; a
  `uint32` converts to `float64` without rounding.
-/

namespace Seinfeld

/-! ## Data model -/

/-- Calendar fields of a Go `time.Time`: the results of `Year()`, `Month()`, `Day()`. -/
structure Date where
  year : Int
  month : Int
  day : Int
deriving DecidableEq, Repr

/-- Go conversion `int16(x)` of an `int`: truncation to a signed 16-bit value. -/
def int16 (x : Int) : Int := (x + 32768) % 65536 - 32768

/-- Go conversion `uint32(x)` of an `int`: reduction modulo `2^32`. -/
def uint32 (x : Int) : Nat := (x % 4294967296).toNat

/-- Go shift `x << s` at type `uint32`: bits shifted past position 31 are lost. -/
def shl32 (x s : Nat) : Nat := (x <<< s) % 4294967296

/-- Go index expression `row[m]` with an `int` index: `none` stands for the panic. -/
def index (row : List Nat) (m : Int) : Option Nat :=
  if 0 ≤ m then row[m.toNat]? else none

/-- The store `BinaryCalendar{marked map[int16][]uint32}`. -/
structure BinaryCalendar where
  marked : Int → Option (List Nat)

/-- Map assignment `c.marked[k] = row`. -/
def BinaryCalendar.store (c : BinaryCalendar) (k : Int) (row : List Nat) : BinaryCalendar :=
  ⟨fun k' => if k' = k then some row else c.marked k'⟩

/-- Constructor `NewBinaryCalendar`: the empty map. -/
def NewBinaryCalendar : BinaryCalendar := ⟨fun _ => none⟩

/-! ## The part of package `time` used by `formatDays` -/

/-- Go `time.isLeap`. -/
def isLeap (year : Int) : Bool :=
  year % 4 = 0 && (year % 100 != 0 || year % 400 = 0)

/-- Go `time.daysIn` for a month number in 1..12. -/
def daysIn (year month : Int) : Int :=
  if month = 2 then (if isLeap year then 29 else 28)
  else if month = 4 ∨ month = 6 ∨ month = 9 ∨ month = 11 then 30
  else 31

/-- Calendar fields of `time.Date(year, month, day, 0, 0, 0, 0, time.UTC)`. The month is
normalised into 1..12 with carry into the year, and a day past the end of that month
moves into the following month. Exact for `1 ≤ day ≤ daysIn + 28`, which covers every
day number `formatDays` passes, and for the years of `InTimeRange`; for other years the
real function wraps around and is not described by this definition. -/
def timeDate (year month day : Int) : Date :=
  let y := year + (month - 1) / 12
  let m := (month - 1) % 12 + 1
  let n := daysIn y m
  if day ≤ n then ⟨y, m, day⟩
  else if m = 12 then ⟨y + 1, 1, day - n⟩
  else ⟨y, m + 1, day - n⟩

/-- The years on which `timeDate` is exact. `time.Date` counts seconds in an unsigned
64-bit integer from the start of the year -292277022399 (in recent versions from 1 March
of the year before); the count of every day of the years up to 292277026853, and of the
first days of the following year, is below `2^64`. -/
def InTimeRange (year : Int) : Prop :=
  -292277022399 ≤ year ∧ year ≤ 292277026853

instance (year : Int) : Decidable (InTimeRange year) := by
  unfold InTimeRange; infer_instance

/-! ## Operations -/

/-- Method `Mark`. -/
def Mark (c : BinaryCalendar) (day : Date) : Option BinaryCalendar :=
  let y := int16 day.year
  let m := day.month - 1
  let row := match c.marked y with
    | some r => r
    | none => List.replicate 12 0
  match index row m with
  | none => none
  | some old => some (c.store y (row.set m.toNat (old ||| shl32 1 (uint32 (day.day - 1)))))

/-- Method `Unmark`. -/
def Unmark (c : BinaryCalendar) (day : Date) : Option BinaryCalendar :=
  let y := int16 day.year
  let m := day.month - 1
  match c.marked y with
  | none => some c
  | some row =>
    match index row m with
    | none => none
    | some old =>
      some (c.store y (row.set m.toNat (old &&& (old ^^^ shl32 1 (uint32 (day.day - 1))))))

/-- Method `IsMarked`. -/
def IsMarked (c : BinaryCalendar) (day : Date) : Option Bool :=
  match c.marked (int16 day.year) with
  | some year =>
    let bit := shl32 1 (uint32 (day.day - 1))
    match index year (day.month - 1) with
    | none => none
    | some v => some (decide (v &&& bit = bit))
  | none => some false

/-- Method `formatDays`: the loop runs `i` from 0 to `floor(log2(days))` inclusive. -/
def formatDays (year month : Int) (days : Nat) : List Date :=
  if days = 0 then []
  else
    (List.range (Nat.log2 days + 1)).foldl
      (fun result (i : Nat) =>
        if days &&& shl32 1 i = shl32 1 i then
          result ++ [timeDate year month ((i : Int) + 1)]
        else result)
      []

/-- Method `GetYear`. -/
def GetYear (c : BinaryCalendar) (year : Int) : Option (List Date) :=
  match c.marked (int16 year) with
  | none => some []
  | some y =>
    (List.range 12).foldlM
      (fun result (m : Nat) =>
        match y[m]? with
        | none => none
        | some days => some (result ++ formatDays year ((m : Int) + 1) days))
      []

/-- Method `GetMonth`. -/
def GetMonth (c : BinaryCalendar) (year month : Int) : Option (List Date) :=
  match c.marked (int16 year) with
  | none => some []
  | some y =>
    match index y (month - 1) with
    | none => none
    | some days => some (formatDays year month days)

/-! ## Call sequences and the predicates used in the statements -/

/-- One mutating call on the store. -/
inductive Op where
  | mark (d : Date)
  | unmark (d : Date)
deriving DecidableEq, Repr

/-- The date argument of a call. -/
def Op.date : Op → Date
  | .mark d => d
  | .unmark d => d

/-- Execute one call. -/
def step (c : BinaryCalendar) : Op → Option BinaryCalendar
  | .mark d => Mark c d
  | .unmark d => Unmark c d

/-- Execute a sequence of calls from left to right; a panic aborts the run. -/
def run (c : BinaryCalendar) : List Op → Option BinaryCalendar
  | [] => some c
  | o :: os =>
    match step c o with
    | none => none
    | some c' => run c' os

/-- A date whose month is in 1..12 and whose day of month is in 1..31. -/
def Date.valid (d : Date) : Prop :=
  1 ≤ d.month ∧ d.month ≤ 12 ∧ 1 ≤ d.day ∧ d.day ≤ 31

instance (d : Date) : Decidable d.valid := by
  unfold Date.valid; infer_instance

/-- A date that exists in the calendar: the day does not exceed the length of the month.
Every `time.Time` value has such fields. -/
def Date.onCalendar (d : Date) : Prop :=
  1 ≤ d.month ∧ d.month ≤ 12 ∧ 1 ≤ d.day ∧ d.day ≤ daysIn d.year d.month

instance (d : Date) : Decidable d.onCalendar := by
  unfold Date.onCalendar; infer_instance

/-- The year is a value of type `int16`. -/
def Date.yearInt16 (d : Date) : Prop :=
  -32768 ≤ d.year ∧ d.year ≤ 32767

instance (d : Date) : Decidable d.yearInt16 := by
  unfold Date.yearInt16; infer_instance

/-- Stores reachable from the empty store by `Mark`/`Unmark` calls on dates satisfying `P`. -/
def Reach (P : Date → Prop) (s : BinaryCalendar) : Prop :=
  ∃ ops : List Op, (∀ o ∈ ops, P o.date) ∧ run NewBinaryCalendar ops = some s

/-- Specification of `GetYear` in the words of the design: the concatenation of
`GetMonth(year, m)` for m = January .. December, in that order. -/
def GetYearByMonths (c : BinaryCalendar) (year : Int) : Option (List Date) := do
  let jan ← GetMonth c year 1
  let feb ← GetMonth c year 2
  let mar ← GetMonth c year 3
  let apr ← GetMonth c year 4
  let may ← GetMonth c year 5
  let jun ← GetMonth c year 6
  let jul ← GetMonth c year 7
  let aug ← GetMonth c year 8
  let sep ← GetMonth c year 9
  let oct ← GetMonth c year 10
  let nov ← GetMonth c year 11
  let dec ← GetMonth c year 12
  pure (jan ++ feb ++ mar ++ apr ++ may ++ jun ++ jul ++ aug ++ sep ++ oct ++ nov ++ dec)

/-- Bit `i` of the mask stored for key `k` at month index `mi`; an absent key or index
reads as a clear bit. -/
def bitAt (s : BinaryCalendar) (k : Int) (mi i : Nat) : Bool :=
  match s.marked k with
  | none => false
  | some row => (row.getD mi 0).testBit i

/-- Every set bit of the mask is a day that exists in the given month of the given year:
the mask is below `2 ^ daysIn`. -/
def MaskFits (year month : Int) (mask : Nat) : Prop :=
  mask < 2 ^ (daysIn year month).toNat

/-- Every set bit of the store is a day that exists in the month of its slot, the key
being read as the year. -/
def DaysExist (s : BinaryCalendar) : Prop :=
  ∀ k mi i, bitAt s k mi i = true → mi < 12 ∧ (i : Int) + 1 ≤ daysIn k ((mi : Int) + 1)

/-- Order of the dates of one year: by month, then by day of month. -/
def Date.monthDayLt (a b : Date) : Prop :=
  a.month < b.month ∨ (a.month = b.month ∧ a.day < b.day)

/-- The store after `Mark(2016-03-15)` on the empty store. -/
def exampleStore : BinaryCalendar :=
  NewBinaryCalendar.store 2016 [0, 0, 16384, 0, 0, 0, 0, 0, 0, 0, 0, 0]

/-- The calls `Mark(2016-03-01)`, ..., `Mark(2016-03-31)`, in that order. -/
def marchMarks : List Op :=
  (List.range 31).map (fun (i : Nat) => Op.mark ⟨2016, 3, (i : Int) + 1⟩)

/-- No stored mask has a bit set at position 31 or above. -/
def BitsBelow31 (s : BinaryCalendar) : Prop :=
  ∀ k mi i, bitAt s k mi i = true → i < 31

/-- The alternative decoding of the design notes: always scan the bit positions 0 to 30
in order and emit day `i + 1` for every set bit `i`. Only the loop bound differs from
`formatDays`; the bit test and the construction of the date are those of the source. -/
def formatDaysScan (year month : Int) (days : Nat) : List Date :=
  (List.range 31).foldl
    (fun result (i : Nat) =>
      if days &&& shl32 1 i = shl32 1 i then
        result ++ [timeDate year month ((i : Int) + 1)]
      else result)
    []

/-- Row-level effect shared by `Mark` and `Unmark`: the mask at index `mi` is replaced by
`f` of its value; `none` when the index is out of range. -/
def updateRow (f : Nat → Nat) (row : List Nat) (mi : Nat) : Option (List Nat) :=
  match row[mi]? with
  | none => none
  | some old => some (row.set mi (f old))

/-- Store-level effect shared by `Mark` and `Unmark`: update the mask at month index `mi`
of the row of key `k`. On an absent key `Mark` first stores a fresh row
(`fresh = some row`) and `Unmark` returns the store unchanged (`fresh = none`). -/
def updateStore (f : Nat → Nat) (fresh : Option (List Nat)) (s : BinaryCalendar) (k : Int)
    (mi : Nat) : Option BinaryCalendar :=
  match s.marked k with
  | some row => (updateRow f row mi).map (s.store k)
  | none =>
    match fresh with
    | some z => (updateRow f z mi).map (s.store k)
    | none => some s

/-- Whether a call is on day `d` of month `m` of a year stored under key `k`. -/
def Op.onDay (o : Op) (k m d : Int) : Bool :=
  decide (int16 o.date.year = k ∧ o.date.month = m ∧ o.date.day = d)

/-- The state of day `d` of month `m` under key `k` that a sequence of calls produces,
read off the calls alone: it starts as `b`, every `Mark` of that day makes it `true`,
every `Unmark` of that day makes it `false`, and every other call leaves it as it is. -/
def dayAfter (k m d : Int) : Bool → List Op → Bool
  | b, [] => b
  | b, Op.mark e :: os =>
    dayAfter k m d (if (Op.mark e).onDay k m d then true else b) os
  | b, Op.unmark e :: os =>
    dayAfter k m d (if (Op.unmark e).onDay k m d then false else b) os

/-- The store after `Mark(2016-03-01)` and `Mark(2016-03-09)` on the empty store. -/
def twoDayStore : BinaryCalendar :=
  NewBinaryCalendar.store 2016 [0, 0, 257, 0, 0, 0, 0, 0, 0, 0, 0, 0]

/-- A sequence of calls in which days are marked, unmarked and marked again. -/
def exampleOps : List Op :=
  [Op.mark ⟨2016, 3, 15⟩, Op.mark ⟨2016, 3, 9⟩, Op.unmark ⟨2016, 3, 15⟩,
    Op.mark ⟨2015, 12, 31⟩, Op.unmark ⟨2016, 3, 9⟩, Op.mark ⟨2016, 3, 9⟩]

/-- Every row of the store holds 12 masks. -/
def Rows12 (s : BinaryCalendar) : Prop :=
  ∀ k row, s.marked k = some row → row.length = 12

/-! ## Arithmetic of the conversions and of single bits -/

theorem index_natCast (row : List Nat) (mi : Nat) : index row (mi : Int) = row[mi]? := by
  simp [index]

theorem uint32_natCast (di : Nat) (h : di < 4294967296) : uint32 (di : Int) = di := by
  unfold uint32; omega

theorem shl32_one (i : Nat) (h : i < 32) : shl32 1 i = 2 ^ i := by
  unfold shl32
  rw [Nat.one_shiftLeft]
  apply Nat.mod_eq_of_lt
  calc 2 ^ i < 2 ^ 32 := Nat.pow_lt_pow_right (by norm_num) h
    _ = 4294967296 := by norm_num

theorem shl32_one_ge (i : Nat) (h : 32 ≤ i) : shl32 1 i = 0 := by
  unfold shl32
  rw [Nat.one_shiftLeft]
  have : (4294967296 : Nat) = 2 ^ 32 := by norm_num
  rw [this]
  exact Nat.mod_eq_zero_of_dvd (Nat.pow_dvd_pow 2 h)

theorem and_two_pow_eq_iff (x i : Nat) : x &&& 2 ^ i = 2 ^ i ↔ x.testBit i = true := by
  rw [Nat.and_two_pow]
  cases h : x.testBit i <;> simp
  exact (Nat.two_pow_pos i).ne

theorem testBit_set (x i j : Nat) :
    (x ||| 2 ^ i).testBit j = (x.testBit j || decide (i = j)) := by
  simp [Nat.testBit_or, Nat.testBit_two_pow]

theorem testBit_clear (x i j : Nat) :
    (x &&& (x ^^^ 2 ^ i)).testBit j = (x.testBit j && !decide (i = j)) := by
  simp only [Nat.testBit_and, Nat.testBit_xor, Nat.testBit_two_pow]
  cases x.testBit j <;> cases decide (i = j) <;> rfl

theorem valid_fields (d : Date) (h : d.valid) :
    ∃ mi di : Nat, mi < 12 ∧ di < 31 ∧ d.month - 1 = (mi : Int) ∧ d.day - 1 = (di : Int) := by
  obtain ⟨h1, h2, h3, h4⟩ := h
  refine ⟨(d.month - 1).toNat, (d.day - 1).toNat, ?_, ?_, ?_, ?_⟩ <;> omega

theorem store_marked_same (s : BinaryCalendar) (k : Int) (row : List Nat) :
    (s.store k row).marked k = some row := by
  simp [BinaryCalendar.store]

theorem store_marked_other (s : BinaryCalendar) (k k' : Int) (row : List Nat) (h : k' ≠ k) :
    (s.store k row).marked k' = s.marked k' := by
  simp [BinaryCalendar.store, h]

theorem Rows12_store (s : BinaryCalendar) (k : Int) (row : List Nat)
    (hs : Rows12 s) (hrow : row.length = 12) : Rows12 (s.store k row) := by
  intro k' r hr
  by_cases hk : k' = k
  · subst hk
    rw [store_marked_same] at hr
    cases hr
    exact hrow
  · rw [store_marked_other _ _ _ _ hk] at hr
    exact hs k' r hr

theorem Rows12_new : Rows12 NewBinaryCalendar := by
  intro k row h
  simp [NewBinaryCalendar] at h

/-- Closed form of `Mark` when the month index and the shift count are in range. -/
theorem Mark_eq (s : BinaryCalendar) (d : Date) (mi di : Nat) (row : List Nat)
    (hm : d.month - 1 = (mi : Int)) (hd : d.day - 1 = (di : Int)) (hdi : di < 32)
    (hrow : (match s.marked (int16 d.year) with
      | some r => r
      | none => List.replicate 12 0) = row)
    (hlen : mi < row.length) :
    Mark s d = some (s.store (int16 d.year) (row.set mi (row[mi] ||| 2 ^ di))) := by
  unfold Mark
  simp only [hrow, hm, hd, index_natCast, Int.toNat_ofNat]
  rw [uint32_natCast di (by omega), shl32_one di hdi, List.getElem?_eq_getElem hlen]

/-- Closed form of `Unmark` on a present key. -/
theorem Unmark_eq (s : BinaryCalendar) (d : Date) (mi di : Nat) (row : List Nat)
    (hm : d.month - 1 = (mi : Int)) (hd : d.day - 1 = (di : Int)) (hdi : di < 32)
    (hrow : s.marked (int16 d.year) = some row)
    (hlen : mi < row.length) :
    Unmark s d =
      some (s.store (int16 d.year) (row.set mi (row[mi] &&& (row[mi] ^^^ 2 ^ di)))) := by
  unfold Unmark
  simp only [hrow, hm, hd, index_natCast, Int.toNat_ofNat]
  rw [uint32_natCast di (by omega), shl32_one di hdi, List.getElem?_eq_getElem hlen]

theorem Unmark_absent (s : BinaryCalendar) (d : Date)
    (hrow : s.marked (int16 d.year) = none) : Unmark s d = some s := by
  unfold Unmark
  simp only [hrow]

/-- Closed form of `IsMarked` on a present key. -/
theorem IsMarked_eq (s : BinaryCalendar) (d : Date) (mi di : Nat) (row : List Nat)
    (hm : d.month - 1 = (mi : Int)) (hd : d.day - 1 = (di : Int)) (hdi : di < 32)
    (hrow : s.marked (int16 d.year) = some row)
    (hlen : mi < row.length) :
    IsMarked s d = some (row[mi].testBit di) := by
  unfold IsMarked
  simp only [hrow, hm, hd, index_natCast]
  rw [uint32_natCast di (by omega), shl32_one di hdi, List.getElem?_eq_getElem hlen]
  simp only [and_two_pow_eq_iff]
  cases row[mi].testBit di <;> simp

theorem IsMarked_absent (s : BinaryCalendar) (d : Date)
    (hrow : s.marked (int16 d.year) = none) : IsMarked s d = some false := by
  unfold IsMarked
  simp only [hrow]

theorem bitAt_store (s : BinaryCalendar) (k : Int) (row : List Nat) (k' : Int) (mi i : Nat) :
    bitAt (s.store k row) k' mi i =
      if k' = k then (row.getD mi 0).testBit i else bitAt s k' mi i := by
  unfold bitAt
  by_cases hk : k' = k
  · subst hk
    simp [store_marked_same]
  · simp [store_marked_other _ _ _ _ hk, hk]

theorem getD_set (row : List Nat) (mi mj v : Nat) (h : mi < row.length) :
    (row.set mi v).getD mj 0 = if mj = mi then v else row.getD mj 0 := by
  by_cases hj : mj = mi
  · subst hj
    simp [List.getD_eq_getElem?_getD, List.getElem?_set, h]
  · have : mi ≠ mj := fun e => hj e.symm
    simp [List.getD_eq_getElem?_getD, List.getElem?_set, hj, this]

theorem getD_replicate_zero (n mj : Nat) : (List.replicate n (0 : Nat)).getD mj 0 = 0 := by
  rw [List.getD_eq_getElem?_getD, List.getElem?_replicate]
  split <;> rfl

/-- Effect of `Mark` on a store with 12-mask rows: it succeeds, keeps the rows at 12 masks
and sets exactly the bit of the date. -/
theorem Mark_bitAt (s : BinaryCalendar) (d : Date) (hs : Rows12 s) (hd : d.valid) :
    ∃ s', Mark s d = some s' ∧ Rows12 s' ∧
      ∀ k mi i, bitAt s' k mi i =
        (bitAt s k mi i ||
          (decide (k = int16 d.year) && decide (mi = (d.month - 1).toNat) &&
            decide (i = (d.day - 1).toNat))) := by
  obtain ⟨mi, di, hmi, hdi, hm, hdd⟩ := valid_fields d hd
  have key : ∀ row, (match s.marked (int16 d.year) with
      | some r => r
      | none => List.replicate 12 0) = row → row.length = 12 →
      (∀ mj i, (row.getD mj 0).testBit i = bitAt s (int16 d.year) mj i) →
      ∃ s', Mark s d = some s' ∧ Rows12 s' ∧
        ∀ k mi i, bitAt s' k mi i =
          (bitAt s k mi i ||
            (decide (k = int16 d.year) && decide (mi = (d.month - 1).toNat) &&
              decide (i = (d.day - 1).toNat))) := by
    intro row hrow hlen hbits
    have hlt : mi < row.length := by omega
    refine ⟨_, Mark_eq s d mi di row hm hdd (by omega) hrow hlt, ?_, ?_⟩
    · exact Rows12_store _ _ _ hs (by simp [hlen])
    · intro k mj i
      rw [bitAt_store, hm, hdd]
      simp only [Int.toNat_ofNat]
      by_cases hk : k = int16 d.year
      · subst hk
        simp only [if_true, decide_True, Bool.true_and]
        rw [getD_set _ _ _ _ hlt]
        by_cases hj : mj = mi
        · subst hj
          simp only [if_true, decide_True, Bool.true_and]
          rw [testBit_set, ← hbits, List.getD_eq_getElem _ _ hlt]
          congr 1
          simp [eq_comm]
        · rw [if_neg hj, hbits]
          simp [hj]
      · simp [hk]
  cases hrow : s.marked (int16 d.year) with
  | none =>
    apply key (List.replicate 12 0) (by simp [hrow]) (by simp)
    intro mj i
    rw [getD_replicate_zero]
    simp [bitAt, hrow]
  | some r =>
    apply key r (by simp [hrow]) (hs _ _ hrow)
    intro mj i
    simp [bitAt, hrow]

/-- Effect of `Unmark` on a store with 12-mask rows: it succeeds, keeps the rows at 12
masks, keeps the set of keys and clears exactly the bit of the date. -/
theorem Unmark_bitAt (s : BinaryCalendar) (d : Date) (hs : Rows12 s) (hd : d.valid) :
    ∃ s', Unmark s d = some s' ∧ Rows12 s' ∧
      ∀ k mi i, bitAt s' k mi i =
        (bitAt s k mi i &&
          !(decide (k = int16 d.year) && decide (mi = (d.month - 1).toNat) &&
            decide (i = (d.day - 1).toNat))) := by
  obtain ⟨mi, di, hmi, hdi, hm, hdd⟩ := valid_fields d hd
  cases hrow : s.marked (int16 d.year) with
  | none =>
    refine ⟨s, Unmark_absent s d hrow, hs, ?_⟩
    intro k mj i
    by_cases hk : k = int16 d.year
    · subst hk
      simp [bitAt, hrow]
    · simp [hk]
  | some row =>
    have hlen := hs _ _ hrow
    have hlt : mi < row.length := by omega
    refine ⟨_, Unmark_eq s d mi di row hm hdd (by omega) hrow hlt, ?_, ?_⟩
    · exact Rows12_store _ _ _ hs (by simp [hlen])
    · intro k mj i
      rw [bitAt_store, hm, hdd]
      simp only [Int.toNat_ofNat]
      by_cases hk : k = int16 d.year
      · subst hk
        simp only [if_true, decide_True, Bool.true_and]
        rw [getD_set _ _ _ _ hlt]
        have hb : ∀ mj i, (row.getD mj 0).testBit i = bitAt s (int16 d.year) mj i := by
          intro mj i
          simp [bitAt, hrow]
        by_cases hj : mj = mi
        · subst hj
          simp only [if_true, decide_True, Bool.true_and]
          rw [testBit_clear, ← hb, List.getD_eq_getElem _ _ hlt]
          congr 2
          simp [eq_comm]
        · rw [if_neg hj, hb]
          simp [hj]
      · simp [hk]

/-- On a store with 12-mask rows `IsMarked` returns the bit of the date. -/
theorem IsMarked_bitAt (s : BinaryCalendar) (d : Date) (hs : Rows12 s) (hd : d.valid) :
    IsMarked s d =
      some (bitAt s (int16 d.year) (d.month - 1).toNat (d.day - 1).toNat) := by
  obtain ⟨mi, di, hmi, hdi, hm, hdd⟩ := valid_fields d hd
  cases hrow : s.marked (int16 d.year) with
  | none =>
    rw [IsMarked_absent s d hrow]
    simp [bitAt, hrow]
  | some row =>
    have hlen := hs _ _ hrow
    have hlt : mi < row.length := by omega
    rw [IsMarked_eq s d mi di row hm hdd (by omega) hrow hlt, hm, hdd]
    simp [bitAt, hrow, List.getElem?_eq_getElem hlt]


/-! ## Invariants of call sequences -/

theorem run_Rows12 (ops : List Op) (s : BinaryCalendar) (hs : Rows12 s)
    (hops : ∀ o ∈ ops, o.date.valid) : ∃ s', run s ops = some s' ∧ Rows12 s' := by
  induction ops generalizing s with
  | nil => exact ⟨s, rfl, hs⟩
  | cons o os ih =>
    have ho : o.date.valid := hops o (List.mem_cons_self _ _)
    have hos : ∀ o' ∈ os, o'.date.valid := fun o' h => hops o' (List.mem_cons_of_mem _ h)
    have hstep : ∃ s1, step s o = some s1 ∧ Rows12 s1 := by
      cases o with
      | mark d =>
        obtain ⟨s1, h1, h2, _⟩ := Mark_bitAt s d hs ho
        exact ⟨s1, h1, h2⟩
      | unmark d =>
        obtain ⟨s1, h1, h2, _⟩ := Unmark_bitAt s d hs ho
        exact ⟨s1, h1, h2⟩
    obtain ⟨s1, h1, h2⟩ := hstep
    obtain ⟨s', h3, h4⟩ := ih s1 h2 hos
    exact ⟨s', by simp [run, h1, h3], h4⟩

theorem Reach_mono (P Q : Date → Prop) (hPQ : ∀ d, P d → Q d) (s : BinaryCalendar)
    (h : Reach P s) : Reach Q s := by
  obtain ⟨ops, hops, hrun⟩ := h
  exact ⟨ops, fun o ho => hPQ _ (hops o ho), hrun⟩

theorem Reach_Rows12 (s : BinaryCalendar) (h : Reach Date.valid s) : Rows12 s := by
  obtain ⟨ops, hops, hrun⟩ := h
  obtain ⟨s', h1, h2⟩ := run_Rows12 ops NewBinaryCalendar Rows12_new hops
  rw [hrun] at h1
  cases h1
  exact h2

theorem Reach_new (P : Date → Prop) : Reach P NewBinaryCalendar :=
  ⟨[], by simp, rfl⟩

theorem exampleStore_marked (k : Int) (row : List Nat)
    (h : exampleStore.marked k = some row) :
    k = 2016 ∧ row = [0, 0, 16384, 0, 0, 0, 0, 0, 0, 0, 0, 0] := by
  unfold exampleStore BinaryCalendar.store NewBinaryCalendar at h
  simp only at h
  by_cases hk : k = 2016
  · rw [if_pos hk] at h
    cases h
    exact ⟨hk, rfl⟩
  · rw [if_neg hk] at h
    cases h

theorem exampleStore_Rows12 : Rows12 exampleStore := by
  intro k row h
  rw [(exampleStore_marked k row h).2]
  rfl

theorem exampleStore_Reach (P : Date → Prop) (h : P ⟨2016, 3, 15⟩) : Reach P exampleStore :=
  ⟨[Op.mark ⟨2016, 3, 15⟩], by simpa [Op.date] using h, rfl⟩

/-! ## Mark, Unmark and IsMarked on one date -/

/-- C1: in every store reachable from the empty store by `Mark`/`Unmark` calls on dates
with month 1..12 and day 1..31, `Mark d` succeeds for every such date `d` and `IsMarked d`
is true in the resulting store. -/
theorem isMarked_after_mark (s : BinaryCalendar) (d : Date)
    (hs : Reach Date.valid s) (hd : d.valid) :
    ∃ s', Mark s d = some s' ∧ IsMarked s' d = some true := by
  obtain ⟨s', h1, h2, h3⟩ := Mark_bitAt s d (Reach_Rows12 s hs) hd
  refine ⟨s', h1, ?_⟩
  rw [IsMarked_bitAt s' d h2 hd, h3]
  simp

theorem isMarked_after_mark_witness :
    Reach Date.valid NewBinaryCalendar ∧ Date.valid ⟨2016, 3, 15⟩ ∧
      ∃ s', Mark NewBinaryCalendar ⟨2016, 3, 15⟩ = some s' ∧
        IsMarked s' ⟨2016, 3, 15⟩ = some true :=
  ⟨Reach_new _, by decide,
    isMarked_after_mark NewBinaryCalendar ⟨2016, 3, 15⟩ (Reach_new _) (by decide)⟩

/-- C2: in every store reachable from the empty store by `Mark`/`Unmark` calls on dates
with month 1..12 and day 1..31, `Unmark d` succeeds for every such date `d` and
`IsMarked d` is false in the resulting store, whatever the state of `d` and of its year
before the call. -/
theorem isMarked_after_unmark (s : BinaryCalendar) (d : Date)
    (hs : Reach Date.valid s) (hd : d.valid) :
    ∃ s', Unmark s d = some s' ∧ IsMarked s' d = some false := by
  obtain ⟨s', h1, h2, h3⟩ := Unmark_bitAt s d (Reach_Rows12 s hs) hd
  refine ⟨s', h1, ?_⟩
  rw [IsMarked_bitAt s' d h2 hd, h3]
  simp

theorem isMarked_after_unmark_witness :
    Reach Date.valid exampleStore ∧ Date.valid ⟨2016, 3, 15⟩ ∧
      ∃ s', Unmark exampleStore ⟨2016, 3, 15⟩ = some s' ∧
        IsMarked s' ⟨2016, 3, 15⟩ = some false :=
  ⟨exampleStore_Reach _ (by decide), by decide,
    isMarked_after_unmark exampleStore ⟨2016, 3, 15⟩ (exampleStore_Reach _ (by decide))
      (by decide)⟩

/-- Shape of the store after a successful `Mark` of a date with month 1..12 and day
1..31. -/
theorem Mark_inv (s s' : BinaryCalendar) (d : Date) (hd : d.valid)
    (h : Mark s d = some s') :
    ∃ (row : List Nat) (mi di : Nat), mi < row.length ∧ di < 31 ∧
      d.month - 1 = (mi : Int) ∧ d.day - 1 = (di : Int) ∧
      (match s.marked (int16 d.year) with
        | some r => r
        | none => List.replicate 12 0) = row ∧
      s' = s.store (int16 d.year) (row.set mi (row[mi]?.getD 0 ||| 2 ^ di)) := by
  obtain ⟨mi, di, hmi, hdi, hm, hdd⟩ := valid_fields d hd
  refine ⟨_, mi, di, ?_, hdi, hm, hdd, rfl, ?_⟩
  · by_contra hlt
    unfold Mark at h
    simp only [hm, index_natCast] at h
    rw [List.getElem?_eq_none (by omega)] at h
    simp at h
  · by_cases hlt : mi < (match s.marked (int16 d.year) with
        | some r => r
        | none => List.replicate 12 0).length
    · rw [Mark_eq s d mi di _ hm hdd (by omega) rfl hlt] at h
      cases h
      rw [List.getElem?_eq_getElem hlt]
      rfl
    · exfalso
      unfold Mark at h
      simp only [hm, index_natCast] at h
      rw [List.getElem?_eq_none (by omega)] at h
      simp at h

/-- Closed form of `IsMarked` on a present key, the panic included. -/
theorem IsMarked_row (s : BinaryCalendar) (e : Date) (me de : Nat) (row : List Nat)
    (hm : e.month - 1 = (me : Int)) (hd : e.day - 1 = (de : Int)) (hde : de < 32)
    (hrow : s.marked (int16 e.year) = some row) :
    IsMarked s e = (row[me]?).map (fun v => v.testBit de) := by
  by_cases hlt : me < row.length
  · rw [IsMarked_eq s e me de row hm hd hde hrow hlt, List.getElem?_eq_getElem hlt]
    rfl
  · unfold IsMarked
    simp only [hrow, hm, index_natCast]
    rw [List.getElem?_eq_none (by omega)]
    rfl

/-- C3 (amended): for every store and every two dates `d`, `e` with month 1..12 and day
1..31 that differ in day, in month, or in year after truncation to 16 bits, a successful
`Mark d` does not change the result of `IsMarked e`. -/
theorem mark_isolated (s s' : BinaryCalendar) (d e : Date) (hd : d.valid) (he : e.valid)
    (hne : int16 d.year ≠ int16 e.year ∨ d.month ≠ e.month ∨ d.day ≠ e.day)
    (h : Mark s d = some s') : IsMarked s' e = IsMarked s e := by
  obtain ⟨row, mi, di, hlt, hdi, hm, hdd, hrow, hs'⟩ := Mark_inv s s' d hd h
  obtain ⟨me, de, hme, hde, hm', hdd'⟩ := valid_fields e he
  by_cases hk : int16 e.year = int16 d.year
  · have hrow' : s'.marked (int16 e.year) =
        some (row.set mi (row[mi]?.getD 0 ||| 2 ^ di)) := by
      rw [hs', hk, store_marked_same]
    rw [IsMarked_row s' e me de _ hm' hdd' (by omega) hrow', List.getElem?_set]
    have hcase : mi ≠ me ∨ di ≠ de := by
      rcases hne with h1 | h1 | h1
      · exact absurd hk.symm h1
      · left; omega
      · right; omega
    cases hsm : s.marked (int16 d.year) with
    | none =>
      have hrow2 : row = List.replicate 12 0 := by rw [← hrow, hsm]
      subst hrow2
      rw [IsMarked_absent s e (hk ▸ hsm)]
      by_cases hmm : mi = me
      · subst hmm
        have hdne : di ≠ de := by
          rcases hcase with h1 | h1
          · exact absurd rfl h1
          · exact h1
        rw [if_pos rfl, if_pos hlt, Option.map_some', testBit_set,
          ← List.getD_eq_getElem?_getD, getD_replicate_zero]
        simp [hdne]
      · rw [if_neg hmm, List.getElem?_replicate]
        simp [hme]
    | some r =>
      have hrow2 : row = r := by rw [← hrow, hsm]
      subst hrow2
      rw [IsMarked_row s e me de row hm' hdd' (by omega) (hk ▸ hsm)]
      by_cases hmm : mi = me
      · subst hmm
        have hdne : di ≠ de := by
          rcases hcase with h1 | h1
          · exact absurd rfl h1
          · exact h1
        rw [if_pos rfl, if_pos hlt, Option.map_some', testBit_set,
          List.getElem?_eq_getElem hlt]
        simp [hdne]
      · rw [if_neg hmm]
  · unfold IsMarked
    rw [hs', store_marked_other _ _ _ _ hk]

theorem mark_isolated_witness :
    Date.valid ⟨2016, 3, 15⟩ ∧ Date.valid ⟨2016, 3, 14⟩ ∧
      (int16 2016 ≠ int16 2016 ∨ (3 : Int) ≠ 3 ∨ (15 : Int) ≠ 14) ∧
      Mark NewBinaryCalendar ⟨2016, 3, 15⟩ =
        some (NewBinaryCalendar.store 2016 [0, 0, 16384, 0, 0, 0, 0, 0, 0, 0, 0, 0]) ∧
      IsMarked (NewBinaryCalendar.store 2016 [0, 0, 16384, 0, 0, 0, 0, 0, 0, 0, 0, 0])
        ⟨2016, 3, 14⟩ = IsMarked NewBinaryCalendar ⟨2016, 3, 14⟩ :=
  ⟨by decide, by decide, by decide, rfl,
    mark_isolated NewBinaryCalendar _ ⟨2016, 3, 15⟩ ⟨2016, 3, 14⟩ (by decide) (by decide)
      (by decide) rfl⟩

/-- C3 (counterexample): the dates 2016-03-01 and 67552-03-01 differ in year, yet marking
the first on the empty store turns `IsMarked` of the second from false to true, because
`int16(67552) = 2016`. -/
theorem mark_isolated_counterexample :
    (2016 : Int) ≠ 67552 ∧ Date.valid ⟨2016, 3, 1⟩ ∧ Date.valid ⟨67552, 3, 1⟩ ∧
      IsMarked NewBinaryCalendar ⟨67552, 3, 1⟩ = some false ∧
      ∃ s', Mark NewBinaryCalendar ⟨2016, 3, 1⟩ = some s' ∧
        IsMarked s' ⟨67552, 3, 1⟩ = some true :=
  ⟨by decide, by decide, by decide, by decide, _, rfl, by decide⟩


/-! ## Decoding a mask: `formatDays` -/

theorem foldl_append_filter (f : Nat → Date) (p : Nat → Prop) [DecidablePred p]
    (l : List Nat) (acc : List Date) :
    l.foldl (fun result i => if p i then result ++ [f i] else result) acc =
      acc ++ (l.filter (fun i => decide (p i))).map f := by
  induction l generalizing acc with
  | nil => simp
  | cons a l ih =>
    simp only [List.foldl_cons]
    rw [ih]
    by_cases h : p a <;> simp [h, List.filter_cons]

theorem testBit_above_log2 (days i : Nat) (h : Nat.log2 days + 1 ≤ i) :
    days.testBit i = false := by
  apply Nat.testBit_lt_two_pow
  calc days < 2 ^ (Nat.log2 days + 1) := Nat.lt_log2_self
    _ ≤ 2 ^ i := Nat.pow_le_pow_right (by norm_num) h

/-- Closed form of `formatDays` for a 32-bit mask: the dates of the set bits, in
increasing bit position. -/
theorem formatDays_eq (y m : Int) (days : Nat) (h : days < 2 ^ 32) :
    formatDays y m days =
      ((List.range 32).filter (fun i => days.testBit i)).map
        (fun (i : Nat) => timeDate y m ((i : Int) + 1)) := by
  unfold formatDays
  by_cases h0 : days = 0
  · subst h0
    simp
  · rw [if_neg h0, foldl_append_filter (fun (i : Nat) => timeDate y m ((i : Int) + 1))
      (fun i => days &&& shl32 1 i = shl32 1 i)]
    have hlog : Nat.log2 days < 32 := (Nat.log2_lt h0).2 h
    have hsplit : (32 : Nat) = (Nat.log2 days + 1) + (32 - (Nat.log2 days + 1)) := by omega
    rw [List.nil_append]
    congr 1
    conv_rhs => rw [hsplit, List.range_add, List.filter_append]
    have hrest : (List.map (fun x => Nat.log2 days + 1 + x)
        (List.range (32 - (Nat.log2 days + 1)))).filter (fun i => days.testBit i) = [] := by
      rw [List.filter_eq_nil_iff]
      intro i hi
      rw [List.mem_map] at hi
      obtain ⟨x, _, rfl⟩ := hi
      rw [testBit_above_log2 days _ (by omega)]
      simp
    rw [hrest, List.append_nil]
    apply List.filter_congr
    intro i hi
    rw [List.mem_range] at hi
    rw [shl32_one i (by omega)]
    by_cases hb : days.testBit i = true
    · simp [hb, (and_two_pow_eq_iff days i).2 hb]
    · have : ¬ (days &&& 2 ^ i = 2 ^ i) := fun e => hb ((and_two_pow_eq_iff days i).1 e)
      simp [hb, this]

theorem mem_formatDays (y m : Int) (days : Nat) (h : days < 2 ^ 32) (x : Date) :
    x ∈ formatDays y m days ↔
      ∃ i : Nat, i < 32 ∧ days.testBit i = true ∧ timeDate y m ((i : Int) + 1) = x := by
  rw [formatDays_eq y m days h]
  simp only [List.mem_map, List.mem_filter, List.mem_range]
  constructor
  · rintro ⟨i, ⟨h1, h2⟩, h3⟩
    exact ⟨i, h1, h2, h3⟩
  · rintro ⟨i, h1, h2, h3⟩
    exact ⟨i, ⟨h1, h2⟩, h3⟩

theorem formatDays_pairwise (y m : Int) (days : Nat) (h : days < 2 ^ 32)
    (R : Date → Date → Prop)
    (hR : ∀ i j : Nat, i < j → j < 32 → days.testBit i = true → days.testBit j = true →
      R (timeDate y m ((i : Int) + 1)) (timeDate y m ((j : Int) + 1))) :
    (formatDays y m days).Pairwise R := by
  rw [formatDays_eq y m days h, List.pairwise_map]
  have hr : (List.range 32).Pairwise (fun i j => i < j ∧ j < 32) := by
    have h1 := List.pairwise_lt_range 32
    have h2 : (List.range 32).Pairwise (fun _ j => j < 32) := by
      rw [List.pairwise_iff_forall_sublist]
      intro a b hab
      have := hab.subset (List.mem_cons_of_mem _ (List.mem_singleton_self b))
      exact List.mem_range.1 this
    exact h1.and h2
  have hf := hr.filter (fun i => days.testBit i)
  rw [List.pairwise_iff_forall_sublist] at hf ⊢
  intro a b hab
  have hmem : a ∈ (List.range 32).filter (fun i => days.testBit i) :=
    hab.subset (List.mem_cons_self _ _)
  have hmemb : b ∈ (List.range 32).filter (fun i => days.testBit i) :=
    hab.subset (List.mem_cons_of_mem _ (List.mem_singleton_self b))
  rw [List.mem_filter] at hmem hmemb
  obtain ⟨h1, h2⟩ := hf hab
  exact hR a b h1 h2 hmem.2 hmemb.2

theorem formatDays_zero (y m : Int) : formatDays y m 0 = [] := by
  simp [formatDays]

theorem timeDate_onCalendar (y m d : Int) (h : Date.onCalendar ⟨y, m, d⟩) :
    timeDate y m d = ⟨y, m, d⟩ := by
  obtain ⟨h1, h2, _, h4⟩ := h
  simp only at h1 h2 h4
  unfold timeDate
  have e1 : (m - 1) / 12 = 0 := by omega
  have e2 : (m - 1) % 12 + 1 = m := by omega
  simp only [e1, e2, add_zero]
  rw [if_pos h4]

theorem daysIn_le (y m : Int) : daysIn y m ≤ 31 := by
  unfold daysIn
  split_ifs <;> omega

theorem daysIn_ge (y m : Int) : 28 ≤ daysIn y m := by
  unfold daysIn
  split_ifs <;> omega


/-! ## Closed forms of `GetMonth` and `GetYear` -/

theorem GetMonth_absent (s : BinaryCalendar) (y m : Int)
    (hrow : s.marked (int16 y) = none) : GetMonth s y m = some [] := by
  unfold GetMonth
  simp only [hrow]

theorem GetYear_absent (s : BinaryCalendar) (y : Int)
    (hrow : s.marked (int16 y) = none) : GetYear s y = some [] := by
  unfold GetYear
  simp only [hrow]

theorem GetMonth_row (s : BinaryCalendar) (y m : Int) (mi : Nat) (row : List Nat)
    (hm : m - 1 = (mi : Int)) (hrow : s.marked (int16 y) = some row)
    (hlt : mi < row.length) : GetMonth s y m = some (formatDays y m row[mi]) := by
  unfold GetMonth
  simp only [hrow, hm, index_natCast]
  rw [List.getElem?_eq_getElem hlt]

theorem foldlM_rows (y : Int) (row : List Nat) (ms : List Nat) (acc : List Date)
    (h : ∀ mi ∈ ms, mi < row.length) :
    ms.foldlM
      (fun result (m : Nat) =>
        match row[m]? with
        | none => none
        | some days => some (result ++ formatDays y ((m : Int) + 1) days))
      acc =
    some (acc ++ ms.flatMap (fun mi => formatDays y ((mi : Int) + 1) (row.getD mi 0))) := by
  induction ms generalizing acc with
  | nil => simp
  | cons a ms ih =>
    have ha : a < row.length := h a (List.mem_cons_self _ _)
    rw [List.foldlM_cons, List.getElem?_eq_getElem ha]
    simp only [Option.bind_eq_bind, Option.some_bind]
    rw [ih _ (fun mi hmi => h mi (List.mem_cons_of_mem _ hmi))]
    simp [List.flatMap_cons, List.getD_eq_getElem?_getD, List.getElem?_eq_getElem ha]

/-- Closed form of `GetYear` on a present key with a full row: the twelve decoded masks
in month order. -/
theorem GetYear_row (s : BinaryCalendar) (y : Int) (row : List Nat)
    (hrow : s.marked (int16 y) = some row) (hlen : 12 ≤ row.length) :
    GetYear s y =
      some ((List.range 12).flatMap
        (fun mi => formatDays y ((mi : Int) + 1) (row.getD mi 0))) := by
  unfold GetYear
  simp only [hrow]
  rw [foldlM_rows y row (List.range 12) [] (fun mi hmi => by
    rw [List.mem_range] at hmi; omega)]
  simp

theorem length_twelve (row : List Nat) (h : row.length = 12) :
    ∃ a0 a1 a2 a3 a4 a5 a6 a7 a8 a9 a10 a11 : Nat,
      row = [a0, a1, a2, a3, a4, a5, a6, a7, a8, a9, a10, a11] := by
  match row, h with
  | [a0, a1, a2, a3, a4, a5, a6, a7, a8, a9, a10, a11], _ =>
    exact ⟨a0, a1, a2, a3, a4, a5, a6, a7, a8, a9, a10, a11, rfl⟩

/-- C7: on every store whose rows hold 12 masks, `GetYear y` returns a sequence, and it
is the concatenation of `GetMonth(y, m)` for m = January .. December in that order; for
an absent year both are empty. -/
theorem getYear_eq_concat_getMonth (s : BinaryCalendar) (y : Int) (hs : Rows12 s) :
    GetYear s y = GetYearByMonths s y ∧ (∃ r, GetYear s y = some r) ∧
      (s.marked (int16 y) = none → GetYear s y = some [] ∧ GetYearByMonths s y = some []) := by
  cases hrow : s.marked (int16 y) with
  | none =>
    have hY := GetYear_absent s y hrow
    have hM : GetYearByMonths s y = some [] := by
      unfold GetYearByMonths
      simp only [GetMonth_absent s y _ hrow]
      rfl
    exact ⟨by rw [hY, hM], ⟨[], hY⟩, fun _ => ⟨hY, hM⟩⟩
  | some row =>
    have hlen := hs _ _ hrow
    have hY := GetYear_row s y row hrow (by omega)
    refine ⟨?_, ⟨_, hY⟩, fun h => by cases h⟩
    rw [hY]
    obtain ⟨a0, a1, a2, a3, a4, a5, a6, a7, a8, a9, a10, a11, rfl⟩ := length_twelve row hlen
    unfold GetYearByMonths
    rw [GetMonth_row s y 1 0 _ (by norm_num) hrow (by simp),
      GetMonth_row s y 2 1 _ (by norm_num) hrow (by simp),
      GetMonth_row s y 3 2 _ (by norm_num) hrow (by simp),
      GetMonth_row s y 4 3 _ (by norm_num) hrow (by simp),
      GetMonth_row s y 5 4 _ (by norm_num) hrow (by simp),
      GetMonth_row s y 6 5 _ (by norm_num) hrow (by simp),
      GetMonth_row s y 7 6 _ (by norm_num) hrow (by simp),
      GetMonth_row s y 8 7 _ (by norm_num) hrow (by simp),
      GetMonth_row s y 9 8 _ (by norm_num) hrow (by simp),
      GetMonth_row s y 10 9 _ (by norm_num) hrow (by simp),
      GetMonth_row s y 11 10 _ (by norm_num) hrow (by simp),
      GetMonth_row s y 12 11 _ (by norm_num) hrow (by simp)]
    simp [List.range, List.range.loop, List.flatMap_cons]

theorem getYear_eq_concat_getMonth_witness :
    Rows12 exampleStore ∧
      GetYear exampleStore 2016 = GetYearByMonths exampleStore 2016 ∧
      (∃ r, GetYear exampleStore 2016 = some r) ∧
      (exampleStore.marked (int16 2016) = none →
        GetYear exampleStore 2016 = some [] ∧ GetYearByMonths exampleStore 2016 = some []) :=
  ⟨exampleStore_Rows12, getYear_eq_concat_getMonth exampleStore 2016 exampleStore_Rows12⟩

/-! ## Keys of the store along a call sequence -/

theorem Mark_marked_other (s s' : BinaryCalendar) (d : Date) (k : Int)
    (h : Mark s d = some s') (hk : k ≠ int16 d.year) : s'.marked k = s.marked k := by
  simp only [Mark] at h
  generalize (match s.marked (int16 d.year) with
    | some r => r
    | none => List.replicate 12 0) = row at h
  cases hidx : index row (d.month - 1) with
  | none => simp only [hidx] at h; cases h
  | some old =>
    simp only [hidx, Option.some.injEq] at h
    subst h
    exact store_marked_other _ _ _ _ hk

theorem Unmark_marked_none (s s' : BinaryCalendar) (d : Date) (k : Int)
    (h : Unmark s d = some s') (hk : s.marked k = none) : s'.marked k = none := by
  simp only [Unmark] at h
  cases hrow : s.marked (int16 d.year) with
  | none =>
    simp only [hrow, Option.some.injEq] at h
    subst h
    exact hk
  | some row =>
    simp only [hrow] at h
    cases hidx : index row (d.month - 1) with
    | none => simp only [hidx] at h; cases h
    | some old =>
      simp only [hidx, Option.some.injEq] at h
      subst h
      have hne : k ≠ int16 d.year := by
        intro e
        rw [e, hrow] at hk
        cases hk
      rw [store_marked_other _ _ _ _ hne]
      exact hk

theorem run_absent (ops : List Op) (s s' : BinaryCalendar) (k : Int)
    (hops : ∀ d, Op.mark d ∈ ops → int16 d.year ≠ k) (hk : s.marked k = none)
    (h : run s ops = some s') : s'.marked k = none := by
  induction ops generalizing s with
  | nil =>
    simp only [run] at h
    cases h
    exact hk
  | cons o os ih =>
    simp only [run] at h
    split at h
    · cases h
    · rename_i s1 hs1
      apply ih s1 (fun d hd => hops d (List.mem_cons_of_mem _ hd)) _ h
      cases o with
      | mark d =>
        have hne : k ≠ int16 d.year := fun e => hops d (List.mem_cons_self _ _) e.symm
        rw [Mark_marked_other s s1 d k hs1 hne]
        exact hk
      | unmark d => exact Unmark_marked_none s s1 d k hs1 hk

/-- C8 (amended): after every sequence of `Mark`/`Unmark` calls (month 1..12, day 1..31)
from the empty store, for every year `y` such that no marked date has a year with the
same 16-bit truncation as `y`: `GetYear y` is empty, `GetMonth(y, m)` is empty for every
`m`, and `IsMarked d` is false for every date `d` of year `y`. Moreover `GetMonth` is
empty for a present year whose mask for that month is zero. -/
theorem absent_year_reads_empty (ops : List Op) (y : Int)
    (hops : ∀ o ∈ ops, o.date.valid)
    (hy : ∀ d, Op.mark d ∈ ops → int16 d.year ≠ int16 y) :
    ∃ s, run NewBinaryCalendar ops = some s ∧
      GetYear s y = some [] ∧
      (∀ m, GetMonth s y m = some []) ∧
      (∀ d : Date, d.year = y → IsMarked s d = some false) ∧
      (∀ (y' m : Int) (row : List Nat), s.marked (int16 y') = some row →
        index row (m - 1) = some 0 → GetMonth s y' m = some []) := by
  obtain ⟨s, hrun, _⟩ := run_Rows12 ops NewBinaryCalendar Rows12_new hops
  have habs : s.marked (int16 y) = none :=
    run_absent ops NewBinaryCalendar s (int16 y) hy rfl hrun
  refine ⟨s, hrun, GetYear_absent s y habs, fun m => GetMonth_absent s y m habs, ?_, ?_⟩
  · intro d hd
    subst hd
    exact IsMarked_absent s d habs
  · intro y' m row hrow hidx
    unfold GetMonth
    simp only [hrow, hidx, formatDays_zero]

theorem absent_year_reads_empty_witness :
    (∀ o ∈ [Op.mark ⟨2016, 3, 1⟩, Op.unmark ⟨2015, 3, 1⟩], o.date.valid) ∧
    (∀ d, Op.mark d ∈ [Op.mark ⟨2016, 3, 1⟩, Op.unmark ⟨2015, 3, 1⟩] →
      int16 d.year ≠ int16 2015) ∧
    ∃ s, run NewBinaryCalendar [Op.mark ⟨2016, 3, 1⟩, Op.unmark ⟨2015, 3, 1⟩] = some s ∧
      GetYear s 2015 = some [] ∧
      (∀ m, GetMonth s 2015 m = some []) ∧
      (∀ d : Date, d.year = 2015 → IsMarked s d = some false) ∧
      (∀ (y' m : Int) (row : List Nat), s.marked (int16 y') = some row →
        index row (m - 1) = some 0 → GetMonth s y' m = some []) :=
  ⟨by decide, by simp; decide,
    absent_year_reads_empty [Op.mark ⟨2016, 3, 1⟩, Op.unmark ⟨2015, 3, 1⟩] 2015
      (by decide) (by simp; decide)⟩

/-- C8 (counterexample): after the single call `Mark(2016-03-01)` no date of year 67552
has been marked, yet `IsMarked(67552-03-01)` is true and `GetYear(67552)` and
`GetMonth(67552, March)` return a date, because `int16(67552) = 2016`. -/
theorem absent_year_counterexample :
    (∀ d, Op.mark d ∈ [Op.mark ⟨2016, 3, 1⟩] → d.year ≠ 67552) ∧
    ∃ s, run NewBinaryCalendar [Op.mark ⟨2016, 3, 1⟩] = some s ∧
      IsMarked s ⟨67552, 3, 1⟩ = some true ∧
      GetMonth s 67552 3 = some [⟨67552, 3, 1⟩] ∧
      GetYear s 67552 = some [⟨67552, 3, 1⟩] := by
  refine ⟨by simp, _, rfl, by decide, ?_, ?_⟩
  · rw [GetMonth_row _ 67552 3 2 [0, 0, 1, 0, 0, 0, 0, 0, 0, 0, 0, 0] (by norm_num) rfl
      (by decide), formatDays_eq _ _ _ (by decide)]
    decide
  · rw [GetYear_row _ 67552 [0, 0, 1, 0, 0, 0, 0, 0, 0, 0, 0, 0] rfl (by decide)]
    simp only [List.range, List.range.loop, List.flatMap_cons, List.flatMap_nil,
      List.getD_cons_zero, List.getD_cons_succ, formatDays_zero, List.nil_append,
      List.append_nil]
    rw [formatDays_eq _ _ _ (by decide)]
    decide


/-! ## Idempotence of `Mark` and `Unmark` on the whole store -/

theorem store_store (s : BinaryCalendar) (k : Int) (r1 r2 : List Nat) :
    (s.store k r1).store k r2 = s.store k r2 := by
  unfold BinaryCalendar.store
  congr 1
  funext k'
  by_cases hk : k' = k <;> simp [hk]

theorem store_same (s : BinaryCalendar) (k : Int) (row : List Nat)
    (h : s.marked k = some row) : s.store k row = s := by
  cases s with
  | mk f =>
    unfold BinaryCalendar.store
    congr 1
    funext k'
    by_cases hk : k' = k
    · subst hk
      simp only [if_true]
      exact h.symm
    · simp [hk]

theorem set_getElem_same (row : List Nat) (mi : Nat) (h : mi < row.length) :
    row.set mi row[mi] = row := by
  apply List.ext_getElem?
  intro j
  rw [List.getElem?_set]
  by_cases hj : mi = j
  · subst hj
    simp [h]
  · simp [hj]

theorem or_bit_of_testBit (x i : Nat) (h : x.testBit i = true) : x ||| 2 ^ i = x := by
  apply Nat.eq_of_testBit_eq
  intro j
  rw [testBit_set]
  by_cases hj : i = j
  · subst hj
    simp [h]
  · simp [hj]

theorem or_bit_or_bit (x i : Nat) : (x ||| 2 ^ i) ||| 2 ^ i = x ||| 2 ^ i := by
  rw [Nat.or_assoc, Nat.or_self]

theorem clear_of_not_testBit (x i : Nat) (h : x.testBit i = false) :
    x &&& (x ^^^ 2 ^ i) = x := by
  apply Nat.eq_of_testBit_eq
  intro j
  rw [testBit_clear]
  by_cases hj : i = j
  · subst hj
    simp [h]
  · simp [hj]

theorem testBit_clear_self (x i : Nat) : (x &&& (x ^^^ 2 ^ i)).testBit i = false := by
  rw [testBit_clear]
  simp

/-- Shape of the store after a successful `Unmark` of a date with month 1..12 and day
1..31 whose year is present. -/
theorem Unmark_inv (s s' : BinaryCalendar) (d : Date) (row : List Nat) (hd : d.valid)
    (hrow : s.marked (int16 d.year) = some row) (h : Unmark s d = some s') :
    ∃ (mi di : Nat) (hlt : mi < row.length), di < 31 ∧
      d.month - 1 = (mi : Int) ∧ d.day - 1 = (di : Int) ∧
      s' = s.store (int16 d.year) (row.set mi (row[mi] &&& (row[mi] ^^^ 2 ^ di))) := by
  obtain ⟨mi, di, hmi, hdi, hm, hdd⟩ := valid_fields d hd
  by_cases hlt : mi < row.length
  · refine ⟨mi, di, hlt, hdi, hm, hdd, ?_⟩
    rw [Unmark_eq s d mi di row hm hdd (by omega) hrow hlt] at h
    cases h
    rfl
  · exfalso
    unfold Unmark at h
    simp only [hrow, hm, index_natCast] at h
    rw [List.getElem?_eq_none (by omega)] at h
    cases h

/-- C9: for every store and every date `d` with month 1..12 and day 1..31, `Mark d`
applied to the result of `Mark d` returns that same store, and when `IsMarked d` already
holds `Mark d` returns the store unchanged (all keys, all masks). On a store with 12-mask
rows `Mark d` does return a store. -/
theorem mark_idempotent (s : BinaryCalendar) (d : Date) (hd : d.valid) :
    (Rows12 s → ∃ s', Mark s d = some s') ∧
      ∀ s', Mark s d = some s' →
        Mark s' d = some s' ∧ (IsMarked s d = some true → s' = s) := by
  constructor
  · intro hs
    obtain ⟨s', h1, _⟩ := Mark_bitAt s d hs hd
    exact ⟨s', h1⟩
  · intro s' h
    obtain ⟨row, mi, di, hlt, hdi, hm, hdd, hrow, hs'⟩ := Mark_inv s s' d hd h
    rw [List.getElem?_eq_getElem hlt, Option.getD_some] at hs'
    constructor
    · have hrow' : (match s'.marked (int16 d.year) with
          | some r => r
          | none => List.replicate 12 0) = row.set mi (row[mi] ||| 2 ^ di) := by
        rw [hs', store_marked_same]
      rw [Mark_eq s' d mi di _ hm hdd (by omega) hrow' (by simpa using hlt)]
      rw [List.getElem_set_self, or_bit_or_bit, List.set_set, hs', store_store]
    · intro hmk
      cases hsm : s.marked (int16 d.year) with
      | none =>
        rw [IsMarked_absent s d hsm] at hmk
        cases hmk
      | some r =>
        have hr : row = r := by rw [← hrow, hsm]
        subst hr
        rw [IsMarked_eq s d mi di row hm hdd (by omega) hsm hlt] at hmk
        have hbit : row[mi].testBit di = true := by simpa using hmk
        rw [hs', or_bit_of_testBit _ _ hbit, set_getElem_same _ _ hlt,
          store_same s _ row hsm]

theorem mark_idempotent_witness :
    Date.valid ⟨2016, 3, 15⟩ ∧
      (Rows12 exampleStore → ∃ s', Mark exampleStore ⟨2016, 3, 15⟩ = some s') ∧
      ∀ s', Mark exampleStore ⟨2016, 3, 15⟩ = some s' →
        Mark s' ⟨2016, 3, 15⟩ = some s' ∧
          (IsMarked exampleStore ⟨2016, 3, 15⟩ = some true → s' = exampleStore) :=
  ⟨by decide, mark_idempotent exampleStore ⟨2016, 3, 15⟩ (by decide)⟩

/-- C10: for every store and every date `d` with month 1..12 and day 1..31, if
`IsMarked d` is false then `Unmark d` returns the store unchanged (all keys, all masks);
in particular an absent year stays absent. `Unmark d` applied to the result of
`Unmark d` returns that same store. On a store with 12-mask rows `Unmark d` does return
a store. -/
theorem unmark_unmarked_noop (s : BinaryCalendar) (d : Date) (hd : d.valid) :
    (IsMarked s d = some false → Unmark s d = some s) ∧
      (s.marked (int16 d.year) = none →
        ∀ s', Unmark s d = some s' → s'.marked (int16 d.year) = none) ∧
      (∀ s', Unmark s d = some s' → Unmark s' d = some s') ∧
      (Rows12 s → ∃ s', Unmark s d = some s') := by
  refine ⟨?_, ?_, ?_, ?_⟩
  · intro hmk
    cases hsm : s.marked (int16 d.year) with
    | none => exact Unmark_absent s d hsm
    | some row =>
      obtain ⟨mi, di, hmi, hdi, hm, hdd⟩ := valid_fields d hd
      rw [IsMarked_row s d mi di row hm hdd (by omega) hsm] at hmk
      have hlt : mi < row.length := by
        by_contra hlt
        rw [List.getElem?_eq_none (by omega)] at hmk
        cases hmk
      rw [List.getElem?_eq_getElem hlt] at hmk
      have hbit : row[mi].testBit di = false := by simpa using hmk
      rw [Unmark_eq s d mi di row hm hdd (by omega) hsm hlt,
        clear_of_not_testBit _ _ hbit, set_getElem_same _ _ hlt, store_same s _ row hsm]
  · intro hsm s' h
    exact Unmark_marked_none s s' d _ h hsm
  · intro s' h
    cases hsm : s.marked (int16 d.year) with
    | none =>
      rw [Unmark_absent s d hsm] at h
      cases h
      exact Unmark_absent s d hsm
    | some row =>
      obtain ⟨mi, di, hlt, hdi, hm, hdd, hs'⟩ := Unmark_inv s s' d row hd hsm h
      have hrow' : s'.marked (int16 d.year) =
          some (row.set mi (row[mi] &&& (row[mi] ^^^ 2 ^ di))) := by
        rw [hs', store_marked_same]
      rw [Unmark_eq s' d mi di _ hm hdd (by omega) hrow' (by simpa using hlt)]
      rw [List.getElem_set_self, clear_of_not_testBit _ _ (testBit_clear_self _ _),
        List.set_set, hs', store_store]
  · intro hs
    obtain ⟨s', h1, _⟩ := Unmark_bitAt s d hs hd
    exact ⟨s', h1⟩

theorem unmark_unmarked_noop_witness :
    Date.valid ⟨2016, 3, 14⟩ ∧
      (IsMarked exampleStore ⟨2016, 3, 14⟩ = some false →
        Unmark exampleStore ⟨2016, 3, 14⟩ = some exampleStore) ∧
      (exampleStore.marked (int16 (2016 : Int)) = none →
        ∀ s', Unmark exampleStore ⟨2016, 3, 14⟩ = some s' →
          s'.marked (int16 (2016 : Int)) = none) ∧
      (∀ s', Unmark exampleStore ⟨2016, 3, 14⟩ = some s' →
        Unmark s' ⟨2016, 3, 14⟩ = some s') ∧
      (Rows12 exampleStore → ∃ s', Unmark exampleStore ⟨2016, 3, 14⟩ = some s') :=
  ⟨by decide, unmark_unmarked_noop exampleStore ⟨2016, 3, 14⟩ (by decide)⟩

/-! ## Decoding a mask whose set bits are existing days -/

theorem lt_two_pow_32_of_bits (mask : Nat) (h : ∀ i, mask.testBit i = true → i < 32) :
    mask < 2 ^ 32 := by
  apply Nat.lt_pow_two_of_testBit
  intro i hi
  by_contra hb
  have := h i (by simpa using hb)
  omega

theorem testBit_of_MaskFits (y m : Int) (mask i : Nat) (h : MaskFits y m mask)
    (hb : mask.testBit i = true) : (i : Int) + 1 ≤ daysIn y m := by
  by_contra hlt
  have hle : (daysIn y m).toNat ≤ i := by omega
  have : mask.testBit i = false := by
    apply Nat.testBit_lt_two_pow
    calc mask < 2 ^ (daysIn y m).toNat := h
      _ ≤ 2 ^ i := Nat.pow_le_pow_right (by norm_num) hle
  rw [this] at hb
  cases hb

/-- When every set bit of the mask is an existing day of the month, `formatDays` returns
the dates of the set bits, unchanged by the normalisation of `time.Date`. -/
theorem formatDays_fits (y m : Int) (mask : Nat) (hm : 1 ≤ m ∧ m ≤ 12)
    (hfit : ∀ i, mask.testBit i = true → (i : Int) + 1 ≤ daysIn y m) :
    formatDays y m mask =
      ((List.range 32).filter (fun i => mask.testBit i)).map
        (fun (i : Nat) => (⟨y, m, (i : Int) + 1⟩ : Date)) := by
  have hlt : mask < 2 ^ 32 := by
    apply lt_two_pow_32_of_bits
    intro i hb
    have h1 := hfit i hb
    have h2 := daysIn_le y m
    omega
  rw [formatDays_eq y m mask hlt]
  apply List.map_congr_left
  intro i hi
  rw [List.mem_filter] at hi
  apply timeDate_onCalendar
  exact ⟨hm.1, hm.2, by simp only; omega, hfit i (by simpa using hi.2)⟩

theorem mem_formatDays_fits (y m : Int) (mask : Nat) (hm : 1 ≤ m ∧ m ≤ 12)
    (hfit : ∀ i, mask.testBit i = true → (i : Int) + 1 ≤ daysIn y m) (x : Date) :
    x ∈ formatDays y m mask ↔
      x.year = y ∧ x.month = m ∧ 1 ≤ x.day ∧ mask.testBit (x.day - 1).toNat = true := by
  rw [formatDays_fits y m mask hm hfit]
  simp only [List.mem_map, List.mem_filter, List.mem_range]
  constructor
  · rintro ⟨i, ⟨_, h2⟩, rfl⟩
    refine ⟨rfl, rfl, by simp only; omega, ?_⟩
    have : ((i : Int) + 1 - 1).toNat = i := by omega
    simpa [this] using h2
  · rintro ⟨h1, h2, h3, h4⟩
    have h5 := hfit _ h4
    have h6 := daysIn_le y m
    refine ⟨(x.day - 1).toNat, ⟨by omega, h4⟩, ?_⟩
    cases x with
    | mk xy xm xd =>
      simp only at h1 h2 h3
      subst h1
      subst h2
      congr 1
      show ((xd - 1).toNat : Int) + 1 = xd
      omega

theorem formatDays_fits_sorted (y m : Int) (mask : Nat) (hm : 1 ≤ m ∧ m ≤ 12)
    (hfit : ∀ i, mask.testBit i = true → (i : Int) + 1 ≤ daysIn y m) :
    (formatDays y m mask).Pairwise (fun a b => a.day < b.day) := by
  have hlt : mask < 2 ^ 32 := by
    apply lt_two_pow_32_of_bits
    intro i hb
    have h1 := hfit i hb
    have h2 := daysIn_le y m
    omega
  apply formatDays_pairwise y m mask hlt
  intro i j hij _ hi hj
  rw [timeDate_onCalendar y m _ ⟨hm.1, hm.2, by simp only; omega, hfit i hi⟩,
    timeDate_onCalendar y m _ ⟨hm.1, hm.2, by simp only; omega, hfit j hj⟩]
  simp only
  omega

theorem twoDayStore_marked (k : Int) (row : List Nat)
    (h : twoDayStore.marked k = some row) :
    k = 2016 ∧ row = [0, 0, 257, 0, 0, 0, 0, 0, 0, 0, 0, 0] := by
  unfold twoDayStore BinaryCalendar.store NewBinaryCalendar at h
  simp only at h
  by_cases hk : k = 2016
  · rw [if_pos hk] at h
    cases h
    exact ⟨hk, rfl⟩
  · rw [if_neg hk] at h
    cases h

theorem twoDayStore_run :
    run NewBinaryCalendar [Op.mark ⟨2016, 3, 1⟩, Op.mark ⟨2016, 3, 9⟩] = some twoDayStore := by
  have h : run NewBinaryCalendar [Op.mark ⟨2016, 3, 1⟩, Op.mark ⟨2016, 3, 9⟩] =
      some ((NewBinaryCalendar.store 2016 [0, 0, 1, 0, 0, 0, 0, 0, 0, 0, 0, 0]).store 2016
        [0, 0, 257, 0, 0, 0, 0, 0, 0, 0, 0, 0]) := rfl
  rw [h, store_store]
  rfl

theorem twoDayStore_Reach (P : Date → Prop) (h1 : P ⟨2016, 3, 1⟩) (h2 : P ⟨2016, 3, 9⟩) :
    Reach P twoDayStore :=
  ⟨[Op.mark ⟨2016, 3, 1⟩, Op.mark ⟨2016, 3, 9⟩], by
    intro o ho
    simp only [List.mem_cons, List.mem_singleton, List.not_mem_nil, or_false] at ho
    rcases ho with rfl | rfl
    · exact h1
    · exact h2, twoDayStore_run⟩

theorem twoDayStore_MaskFits (row : List Nat) (mask : Nat)
    (hrow : twoDayStore.marked (int16 2016) = some row)
    (hidx : index row (3 - 1) = some mask) : MaskFits 2016 3 mask := by
  rw [(twoDayStore_marked _ row hrow).2] at hidx
  have h2 : index [0, 0, 257, 0, 0, 0, 0, 0, 0, 0, 0, 0] (3 - 1) = some 257 := by decide
  rw [h2] at hidx
  cases hidx
  unfold MaskFits
  decide

theorem twoDayStore_GetMonth :
    GetMonth twoDayStore 2016 3 = some [⟨2016, 3, 1⟩, ⟨2016, 3, 9⟩] := by
  rw [GetMonth_row twoDayStore 2016 3 2 [0, 0, 257, 0, 0, 0, 0, 0, 0, 0, 0, 0]
    (by norm_num) rfl (by decide), formatDays_eq _ _ _ (by decide)]
  decide

/-- C6 (amended): for every store, every year `y` that `time.Date` represents without
overflow and every month `m` in 1..12 such that every set bit of the stored mask for
`(y, m)` is a day that exists in that month of year `y`, the dates returned by
`GetMonth(y, m)` are strictly ascending by day of month; on a store with 12-mask rows
`GetMonth(y, m)` does return a sequence. -/
theorem getMonth_ascending (s : BinaryCalendar) (y m : Int) (_hy : InTimeRange y)
    (hm : 1 ≤ m ∧ m ≤ 12)
    (hfit : ∀ row mask, s.marked (int16 y) = some row → index row (m - 1) = some mask →
      MaskFits y m mask) :
    (Rows12 s → ∃ r, GetMonth s y m = some r) ∧
      ∀ r, GetMonth s y m = some r → r.Pairwise (fun a b => a.day < b.day) := by
  constructor
  · intro hs
    cases hrow : s.marked (int16 y) with
    | none => exact ⟨[], GetMonth_absent s y m hrow⟩
    | some row =>
      have hlen := hs _ _ hrow
      exact ⟨_, GetMonth_row s y m (m - 1).toNat row (by omega) hrow (by omega)⟩
  · intro r hr
    unfold GetMonth at hr
    cases hrow : s.marked (int16 y) with
    | none =>
      simp only [hrow, Option.some.injEq] at hr
      subst hr
      exact List.Pairwise.nil
    | some row =>
      simp only [hrow] at hr
      cases hidx : index row (m - 1) with
      | none => simp only [hidx] at hr; cases hr
      | some mask =>
        simp only [hidx, Option.some.injEq] at hr
        subst hr
        exact formatDays_fits_sorted y m mask hm
          (fun i hb => testBit_of_MaskFits y m mask i (hfit row mask hrow hidx) hb)

theorem getMonth_ascending_witness :
    InTimeRange 2016 ∧ ((1 : Int) ≤ 3 ∧ (3 : Int) ≤ 12) ∧
    (∀ row mask, twoDayStore.marked (int16 2016) = some row →
      index row (3 - 1) = some mask → MaskFits 2016 3 mask) ∧
    GetMonth twoDayStore 2016 3 = some [⟨2016, 3, 1⟩, ⟨2016, 3, 9⟩] ∧
    ((Rows12 twoDayStore → ∃ r, GetMonth twoDayStore 2016 3 = some r) ∧
      ∀ r, GetMonth twoDayStore 2016 3 = some r → r.Pairwise (fun a b => a.day < b.day)) :=
  ⟨by decide, by decide, twoDayStore_MaskFits, twoDayStore_GetMonth,
    getMonth_ascending twoDayStore 2016 3 (by decide) (by decide) twoDayStore_MaskFits⟩

/-- C6 (counterexample): after `Mark(2004-02-28)` and `Mark(2004-02-29)` the call
`GetMonth(722900, February)` reads the same mask (`int16(722900) = 2004`); year 722900 is
not a leap year, so `time.Date(722900, 2, 29)` is March 1 and the returned days of month
are 28, 1: not ascending. -/
theorem getMonth_ascending_counterexample :
    Date.onCalendar ⟨2004, 2, 28⟩ ∧ Date.onCalendar ⟨2004, 2, 29⟩ ∧ InTimeRange 722900 ∧
    ∃ s, run NewBinaryCalendar [Op.mark ⟨2004, 2, 28⟩, Op.mark ⟨2004, 2, 29⟩] = some s ∧
      GetMonth s 722900 2 = some [⟨722900, 2, 28⟩, ⟨722900, 3, 1⟩] ∧
      ¬ List.Pairwise (fun a b : Date => a.day < b.day)
        [⟨722900, 2, 28⟩, ⟨722900, 3, 1⟩] := by
  refine ⟨by decide, by decide, by decide, _, rfl, ?_, by simp⟩
  rw [GetMonth_row _ 722900 2 1 [0, 402653184, 0, 0, 0, 0, 0, 0, 0, 0, 0, 0] (by norm_num)
    rfl (by decide), formatDays_eq _ _ _ (by decide)]
  decide

/-! ## Stores built from existing dates with 16-bit years -/

theorem int16_of_range (y : Int) (h : -32768 ≤ y ∧ y ≤ 32767) : int16 y = y := by
  unfold int16
  omega

theorem onCalendar_valid (d : Date) (h : d.onCalendar) : d.valid :=
  ⟨h.1, h.2.1, h.2.2.1, le_trans h.2.2.2 (daysIn_le _ _)⟩

theorem DaysExist_new : DaysExist NewBinaryCalendar := by
  intro k mi i h
  simp [bitAt, NewBinaryCalendar] at h

theorem run_DaysExist (ops : List Op) (s : BinaryCalendar) (hs : Rows12 s)
    (he : DaysExist s) (hops : ∀ o ∈ ops, o.date.onCalendar ∧ o.date.yearInt16) :
    ∃ s', run s ops = some s' ∧ Rows12 s' ∧ DaysExist s' := by
  induction ops generalizing s with
  | nil => exact ⟨s, rfl, hs, he⟩
  | cons o os ih =>
    have ho := hops o (List.mem_cons_self _ _)
    have hos : ∀ o' ∈ os, o'.date.onCalendar ∧ o'.date.yearInt16 :=
      fun o' h => hops o' (List.mem_cons_of_mem _ h)
    have hstep : ∃ s1, step s o = some s1 ∧ Rows12 s1 ∧ DaysExist s1 := by
      cases o with
      | mark d =>
        have ho : d.onCalendar ∧ d.yearInt16 := ho
        have hv : d.valid := onCalendar_valid d ho.1
        obtain ⟨s1, h1, h2, h3⟩ := Mark_bitAt s d hs hv
        refine ⟨s1, h1, h2, ?_⟩
        intro k mi i hb
        rw [h3, Bool.or_eq_true] at hb
        rcases hb with hb | hb
        · exact he k mi i hb
        · simp only [Bool.and_eq_true, decide_eq_true_eq] at hb
          obtain ⟨⟨hk, hmi⟩, hi⟩ := hb
          obtain ⟨c1, c2, c3, c4⟩ := ho.1
          have hkk : k = d.year := by rw [hk]; exact int16_of_range _ ho.2
          have e1 : ((mi : Nat) : Int) + 1 = d.month := by rw [hmi]; omega
          have e2 : ((i : Nat) : Int) + 1 = d.day := by rw [hi]; omega
          constructor
          · rw [hmi]; omega
          · rw [e1, e2, hkk]
            exact c4
      | unmark d =>
        have ho : d.onCalendar ∧ d.yearInt16 := ho
        have hv : d.valid := onCalendar_valid d ho.1
        obtain ⟨s1, h1, h2, h3⟩ := Unmark_bitAt s d hs hv
        refine ⟨s1, h1, h2, ?_⟩
        intro k mi i hb
        rw [h3, Bool.and_eq_true] at hb
        exact he k mi i hb.1
    obtain ⟨s1, h1, h2, h3⟩ := hstep
    obtain ⟨s', h4, h5, h6⟩ := ih s1 h2 h3 hos
    exact ⟨s', by simp [run, h1, h4], h5, h6⟩

theorem Reach_DaysExist (s : BinaryCalendar)
    (h : Reach (fun d => d.onCalendar ∧ d.yearInt16) s) : Rows12 s ∧ DaysExist s := by
  obtain ⟨ops, hops, hrun⟩ := h
  obtain ⟨s', h1, h2, h3⟩ := run_DaysExist ops NewBinaryCalendar Rows12_new DaysExist_new hops
  rw [hrun] at h1
  cases h1
  exact ⟨h2, h3⟩

/-- On a store built from existing dates whose years are `int16` values, every mask read
under such a year has only bits of days that exist in its month. -/
theorem MaskFits_of_Reach (s : BinaryCalendar) (y m : Int)
    (hs : Reach (fun d => d.onCalendar ∧ d.yearInt16) s)
    (hy : -32768 ≤ y ∧ y ≤ 32767) (hm : 1 ≤ m ∧ m ≤ 12) :
    ∀ row mask, s.marked (int16 y) = some row → index row (m - 1) = some mask →
      MaskFits y m mask := by
  intro row mask hrow hidx
  obtain ⟨h12, hex⟩ := Reach_DaysExist s hs
  have hlen := h12 _ _ hrow
  have hlt : (m - 1).toNat < row.length := by omega
  have hmask : row.getD (m - 1).toNat 0 = mask := by
    unfold index at hidx
    rw [if_pos (by omega), List.getElem?_eq_getElem hlt] at hidx
    rw [List.getD_eq_getElem _ _ hlt]
    exact Option.some.inj hidx
  unfold MaskFits
  apply Nat.lt_pow_two_of_testBit
  intro i hi
  by_contra hb
  have hset : bitAt s (int16 y) (m - 1).toNat i = true := by
    simp only [bitAt, hrow]
    rw [hmask]
    simpa using hb
  have h1 := (hex _ _ _ hset).2
  rw [int16_of_range y hy] at h1
  have e1 : (((m - 1).toNat : Nat) : Int) + 1 = m := by omega
  rw [e1] at h1
  have h2 := daysIn_ge y m
  omega

/-- C5 (amended): for every store reachable from the empty store by `Mark`/`Unmark`
calls with month 1..12 and day 1..31, every year `y` that `time.Date` represents without
overflow and every month `m` in 1..12 such that every set bit of the stored mask for
`(y, m)` is a day that exists in that month of year `y`: `GetMonth(y, m)` returns a
sequence; for every day `d` in 1..31 the date `(y, m, d)` occurs in it exactly when
`IsMarked((y, m, d))` is true; and it contains no other dates. -/
theorem getMonth_iff_isMarked (s : BinaryCalendar) (y m : Int)
    (hs : Reach Date.valid s) (_hy : InTimeRange y) (hm : 1 ≤ m ∧ m ≤ 12)
    (hfit : ∀ row mask, s.marked (int16 y) = some row → index row (m - 1) = some mask →
      MaskFits y m mask) :
    ∃ r, GetMonth s y m = some r ∧
      (∀ d : Int, 1 ≤ d → d ≤ 31 →
        ((⟨y, m, d⟩ : Date) ∈ r ↔ IsMarked s ⟨y, m, d⟩ = some true)) ∧
      (∀ x ∈ r, x.year = y ∧ x.month = m ∧ 1 ≤ x.day ∧ x.day ≤ 31 ∧
        IsMarked s x = some true) := by
  have h12 := Reach_Rows12 s hs
  have hmarked : ∀ d : Int, 1 ≤ d → d ≤ 31 →
      IsMarked s ⟨y, m, d⟩ = some (bitAt s (int16 y) (m - 1).toNat (d - 1).toNat) := by
    intro d h1 h2
    exact IsMarked_bitAt s ⟨y, m, d⟩ h12 ⟨hm.1, hm.2, h1, h2⟩
  cases hrow : s.marked (int16 y) with
  | none =>
    refine ⟨[], GetMonth_absent s y m hrow, ?_, ?_⟩
    · intro d h1 h2
      rw [hmarked d h1 h2]
      simp [bitAt, hrow]
    · intro x hx
      cases hx
  | some row =>
    have hlen := h12 _ _ hrow
    have hlt : (m - 1).toNat < row.length := by omega
    have hbit : ∀ i, row[(m - 1).toNat].testBit i = bitAt s (int16 y) (m - 1).toNat i := by
      intro i
      simp only [bitAt, hrow]
      rw [List.getD_eq_getElem _ _ hlt]
    have hidx : index row (m - 1) = some row[(m - 1).toNat] := by
      unfold index
      rw [if_pos (by omega), List.getElem?_eq_getElem hlt]
    have hfit' : ∀ i, row[(m - 1).toNat].testBit i = true → (i : Int) + 1 ≤ daysIn y m :=
      fun i hb => testBit_of_MaskFits y m _ i (hfit row _ hrow hidx) hb
    refine ⟨_, GetMonth_row s y m (m - 1).toNat row (by omega) hrow hlt, ?_, ?_⟩
    · intro d h1 h2
      rw [hmarked d h1 h2, mem_formatDays_fits y m _ hm hfit', hbit]
      simp [h1]
    · intro x hx
      rw [mem_formatDays_fits y m _ hm hfit'] at hx
      obtain ⟨x1, x2, x3, x4⟩ := hx
      have x5 := hfit' _ x4
      have x6 := daysIn_le y m
      have x7 : x.day ≤ 31 := by omega
      refine ⟨x1, x2, x3, x7, ?_⟩
      have hx' : x = ⟨y, m, x.day⟩ := by
        cases x
        simp only at x1 x2
        subst x1
        subst x2
        rfl
      rw [hx', hmarked x.day x3 x7, ← hbit, x4]

theorem getMonth_iff_isMarked_witness :
    Reach Date.valid twoDayStore ∧ InTimeRange 2016 ∧ ((1 : Int) ≤ 3 ∧ (3 : Int) ≤ 12) ∧
    (∀ row mask, twoDayStore.marked (int16 2016) = some row →
      index row (3 - 1) = some mask → MaskFits 2016 3 mask) ∧
    GetMonth twoDayStore 2016 3 = some [⟨2016, 3, 1⟩, ⟨2016, 3, 9⟩] ∧
    ∃ r, GetMonth twoDayStore 2016 3 = some r ∧
      (∀ d : Int, 1 ≤ d → d ≤ 31 →
        ((⟨2016, 3, d⟩ : Date) ∈ r ↔ IsMarked twoDayStore ⟨2016, 3, d⟩ = some true)) ∧
      (∀ x ∈ r, x.year = 2016 ∧ x.month = 3 ∧ 1 ≤ x.day ∧ x.day ≤ 31 ∧
        IsMarked twoDayStore x = some true) :=
  ⟨twoDayStore_Reach _ (by decide) (by decide), by decide, by decide, twoDayStore_MaskFits,
    twoDayStore_GetMonth,
    getMonth_iff_isMarked twoDayStore 2016 3 (twoDayStore_Reach _ (by decide) (by decide))
      (by decide) (by decide) twoDayStore_MaskFits⟩

/-- C5 (counterexample): after `Mark(2004-02-29)` the call `GetMonth(722900, February)`
reads the mask of key `int16(722900) = 2004`; year 722900 has no February 29, so the
returned date is 722900-03-01: an existing date outside the requested month, for which
`IsMarked` is false. -/
theorem getMonth_iff_isMarked_counterexample :
    Date.onCalendar ⟨2004, 2, 29⟩ ∧ InTimeRange 722900 ∧
    ∃ s, run NewBinaryCalendar [Op.mark ⟨2004, 2, 29⟩] = some s ∧
      GetMonth s 722900 2 = some [⟨722900, 3, 1⟩] ∧
      (⟨722900, 3, 1⟩ : Date).month ≠ 2 ∧
      Date.onCalendar ⟨722900, 3, 1⟩ ∧
      IsMarked s ⟨722900, 3, 1⟩ = some false := by
  refine ⟨by decide, by decide, _, rfl, ?_, by decide, by decide, by decide⟩
  rw [GetMonth_row _ 722900 2 1 [0, 268435456, 0, 0, 0, 0, 0, 0, 0, 0, 0, 0] (by norm_num)
    rfl (by decide), formatDays_eq _ _ _ (by decide)]
  decide

/-! ## Round trip: marking a set of dates of one year and reading the year back -/

theorem bitAt_new (k : Int) (mi i : Nat) : bitAt NewBinaryCalendar k mi i = false := by
  simp [bitAt, NewBinaryCalendar]

theorem run_marks_bits (S : List Date) (s0 : BinaryCalendar) (hs : Rows12 s0)
    (hS : ∀ d ∈ S, d.valid) :
    ∃ s', run s0 (S.map Op.mark) = some s' ∧ Rows12 s' ∧
      ∀ k mi i, (bitAt s' k mi i = true ↔
        bitAt s0 k mi i = true ∨
          ∃ d ∈ S, k = int16 d.year ∧ mi = (d.month - 1).toNat ∧ i = (d.day - 1).toNat) := by
  induction S generalizing s0 with
  | nil =>
    refine ⟨s0, rfl, hs, ?_⟩
    intro k mi i
    simp
  | cons d S ih =>
    obtain ⟨s1, h1, h2, h3⟩ := Mark_bitAt s0 d hs (hS d (List.mem_cons_self _ _))
    obtain ⟨s', h4, h5, h6⟩ := ih s1 h2 (fun e he => hS e (List.mem_cons_of_mem _ he))
    refine ⟨s', by simp [run, step, h1, h4], h5, ?_⟩
    intro k mi i
    rw [h6, h3]
    simp only [Bool.or_eq_true, Bool.and_eq_true, decide_eq_true_eq, List.mem_cons,
      exists_eq_or_imp]
    tauto

theorem monthDayLt_ne (a b : Date) (h : a.monthDayLt b) : a ≠ b := by
  intro e
  subst e
  rcases h with h | ⟨_, h⟩ <;> omega

/-- C4: for every year `y` and every finite collection `S` of existing calendar dates of
year `y`, listed in any order and possibly with repetitions, marking all of them on the
empty store succeeds and `GetYear y` then returns a sequence that is strictly ascending
by (month, day), has no duplicates, and whose elements are exactly the dates of `S`. -/
theorem getYear_roundtrip (y : Int) (S : List Date)
    (hS : ∀ d ∈ S, d.onCalendar ∧ d.year = y) :
    ∃ s r, run NewBinaryCalendar (S.map Op.mark) = some s ∧ GetYear s y = some r ∧
      r.Pairwise Date.monthDayLt ∧ r.Nodup ∧ ∀ d, d ∈ r ↔ d ∈ S := by
  obtain ⟨s, hrun, h12, hbits⟩ := run_marks_bits S NewBinaryCalendar Rows12_new
    (fun d hd => onCalendar_valid d (hS d hd).1)
  have hb : ∀ mi i, (bitAt s (int16 y) mi i = true ↔
      ∃ d ∈ S, mi = (d.month - 1).toNat ∧ i = (d.day - 1).toNat) := by
    intro mi i
    rw [hbits, bitAt_new]
    constructor
    · rintro (h | ⟨d, hd, _, h2, h3⟩)
      · cases h
      · exact ⟨d, hd, h2, h3⟩
    · rintro ⟨d, hd, h2, h3⟩
      exact Or.inr ⟨d, hd, by rw [(hS d hd).2], h2, h3⟩
  suffices hsuff : ∃ r, GetYear s y = some r ∧ r.Pairwise Date.monthDayLt ∧
      ∀ d, d ∈ r ↔ d ∈ S by
    obtain ⟨r, h1, h2, h3⟩ := hsuff
    exact ⟨s, r, hrun, h1, h2, h2.imp (fun {a b} h => monthDayLt_ne a b h), h3⟩
  cases hrow : s.marked (int16 y) with
  | none =>
    refine ⟨[], GetYear_absent s y hrow, List.Pairwise.nil, ?_⟩
    intro d
    constructor
    · intro h
      cases h
    · intro hd
      have := (hb (d.month - 1).toNat (d.day - 1).toNat).2 ⟨d, hd, rfl, rfl⟩
      simp [bitAt, hrow] at this
  | some row =>
    have hlen := h12 _ _ hrow
    have hbit : ∀ mi i, (row.getD mi 0).testBit i = bitAt s (int16 y) mi i := by
      intro mi i
      simp only [bitAt, hrow]
    have hmonth : ∀ mi : Nat, mi < 12 → (1 : Int) ≤ (mi : Int) + 1 ∧ (mi : Int) + 1 ≤ 12 := by
      intro mi h
      omega
    have hfit : ∀ mi : Nat, ∀ i, (row.getD mi 0).testBit i = true →
        (i : Int) + 1 ≤ daysIn y ((mi : Int) + 1) := by
      intro mi i h
      rw [hbit, hb] at h
      obtain ⟨d, hd, h2, h3⟩ := h
      obtain ⟨⟨c1, c2, c3, c4⟩, c5⟩ := hS d hd
      have e1 : ((mi : Nat) : Int) + 1 = d.month := by rw [h2]; omega
      have e2 : ((i : Nat) : Int) + 1 = d.day := by rw [h3]; omega
      rw [e1, e2, ← c5]
      exact c4
    refine ⟨_, GetYear_row s y row hrow (by omega), ?_, ?_⟩
    · rw [List.pairwise_flatMap]
      constructor
      · intro mi hmi
        rw [List.mem_range] at hmi
        have hsorted := formatDays_fits_sorted y ((mi : Int) + 1) (row.getD mi 0)
          (hmonth mi hmi) (hfit mi)
        rw [List.pairwise_iff_forall_sublist] at hsorted ⊢
        intro a b hab
        have ha := (mem_formatDays_fits y _ _ (hmonth mi hmi) (hfit mi) a).1
          (hab.subset (List.mem_cons_self _ _))
        have hb' := (mem_formatDays_fits y _ _ (hmonth mi hmi) (hfit mi) b).1
          (hab.subset (List.mem_cons_of_mem _ (List.mem_singleton_self b)))
        exact Or.inr ⟨by rw [ha.2.1, hb'.2.1], hsorted hab⟩
      · have hr : (List.range 12).Pairwise (fun i j => i < j ∧ i < 12 ∧ j < 12) := by
          have h1 := List.pairwise_lt_range 12
          rw [List.pairwise_iff_forall_sublist] at h1 ⊢
          intro a b hab
          have ha := List.mem_range.1 (hab.subset (List.mem_cons_self _ _))
          have hb' := List.mem_range.1
            (hab.subset (List.mem_cons_of_mem _ (List.mem_singleton_self b)))
          exact ⟨h1 hab, ha, hb'⟩
        apply hr.imp
        intro m1 m2 h a ha b hb'
        have ha' := (mem_formatDays_fits y _ _ (hmonth m1 h.2.1) (hfit m1) a).1 ha
        have hb'' := (mem_formatDays_fits y _ _ (hmonth m2 h.2.2) (hfit m2) b).1 hb'
        left
        rw [ha'.2.1, hb''.2.1]
        omega
    · intro x
      rw [List.mem_flatMap]
      constructor
      · rintro ⟨mi, hmi, hx⟩
        rw [List.mem_range] at hmi
        obtain ⟨x1, x2, x3, x4⟩ :=
          (mem_formatDays_fits y _ _ (hmonth mi hmi) (hfit mi) x).1 hx
        rw [hbit, hb] at x4
        obtain ⟨d, hd, h2, h3⟩ := x4
        obtain ⟨⟨c1, c2, c3, c4⟩, c5⟩ := hS d hd
        have hxd : x = d := by
          cases x
          cases d
          simp only at x1 x2 x3 h2 h3 c1 c2 c3 c5
          simp only [Date.mk.injEq]
          refine ⟨by rw [x1, c5], by omega, by omega⟩
        rw [hxd]
        exact hd
      · intro hx
        obtain ⟨⟨c1, c2, c3, c4⟩, c5⟩ := hS x hx
        have c6 := daysIn_le x.year x.month
        have hmi : (x.month - 1).toNat < 12 := by omega
        refine ⟨(x.month - 1).toNat, List.mem_range.2 hmi, ?_⟩
        rw [mem_formatDays_fits y _ _ (hmonth _ hmi) (hfit _)]
        refine ⟨c5, by omega, c3, ?_⟩
        rw [hbit, hb]
        exact ⟨x, hx, rfl, rfl⟩

theorem getYear_roundtrip_witness :
    (∀ d ∈ [(⟨2006, 12, 31⟩ : Date), ⟨2006, 2, 28⟩, ⟨2006, 2, 1⟩],
      d.onCalendar ∧ d.year = 2006) ∧
    ∃ s r, run NewBinaryCalendar
        ([(⟨2006, 12, 31⟩ : Date), ⟨2006, 2, 28⟩, ⟨2006, 2, 1⟩].map Op.mark) = some s ∧
      GetYear s 2006 = some r ∧ r.Pairwise Date.monthDayLt ∧ r.Nodup ∧
      ∀ d, d ∈ r ↔ d ∈ [(⟨2006, 12, 31⟩ : Date), ⟨2006, 2, 28⟩, ⟨2006, 2, 1⟩] :=
  ⟨by decide, getYear_roundtrip 2006 [⟨2006, 12, 31⟩, ⟨2006, 2, 28⟩, ⟨2006, 2, 1⟩] (by decide)⟩


/-! ## The bit encoding of the masks -/

theorem BitsBelow31_new : BitsBelow31 NewBinaryCalendar := by
  intro k mi i h
  rw [bitAt_new] at h
  cases h

theorem run_BitsBelow31 (ops : List Op) (s : BinaryCalendar) (hs : Rows12 s)
    (hb : BitsBelow31 s) (hops : ∀ o ∈ ops, o.date.valid) :
    ∃ s', run s ops = some s' ∧ Rows12 s' ∧ BitsBelow31 s' := by
  induction ops generalizing s with
  | nil => exact ⟨s, rfl, hs, hb⟩
  | cons o os ih =>
    have ho := hops o (List.mem_cons_self _ _)
    have hos : ∀ o' ∈ os, o'.date.valid := fun o' h => hops o' (List.mem_cons_of_mem _ h)
    have hstep : ∃ s1, step s o = some s1 ∧ Rows12 s1 ∧ BitsBelow31 s1 := by
      cases o with
      | mark d =>
        have ho : d.valid := ho
        obtain ⟨s1, h1, h2, h3⟩ := Mark_bitAt s d hs ho
        refine ⟨s1, h1, h2, ?_⟩
        intro k mi i hbit
        rw [h3, Bool.or_eq_true] at hbit
        rcases hbit with hbit | hbit
        · exact hb k mi i hbit
        · simp only [Bool.and_eq_true, decide_eq_true_eq] at hbit
          obtain ⟨_, _, c3, c4⟩ := ho
          rw [hbit.2]
          omega
      | unmark d =>
        have ho : d.valid := ho
        obtain ⟨s1, h1, h2, h3⟩ := Unmark_bitAt s d hs ho
        refine ⟨s1, h1, h2, ?_⟩
        intro k mi i hbit
        rw [h3, Bool.and_eq_true] at hbit
        exact hb k mi i hbit.1
    obtain ⟨s1, h1, h2, h3⟩ := hstep
    obtain ⟨s', h4, h5, h6⟩ := ih s1 h2 h3 hos
    exact ⟨s', by simp [run, h1, h4], h5, h6⟩

theorem Reach_BitsBelow31 (s : BinaryCalendar) (h : Reach Date.valid s) :
    BitsBelow31 s := by
  obtain ⟨ops, hops, hrun⟩ := h
  obtain ⟨s', h1, _, h3⟩ :=
    run_BitsBelow31 ops NewBinaryCalendar Rows12_new BitsBelow31_new hops
  rw [hrun] at h1
  cases h1
  exact h3

/-- C12: in every store reachable from the empty store by `Mark` and `Unmark` calls on
dates with month 1..12 and day of month 1..31, every stored mask is below `2^31`, that
is, bit 31 of every mask is clear. -/
theorem masks_below_two_pow_31 (s : BinaryCalendar) (hs : Reach Date.valid s) :
    ∀ k row mask, s.marked k = some row → mask ∈ row →
      mask < 2 ^ 31 ∧ mask.testBit 31 = false := by
  intro k row mask hrow hmem
  have hb := Reach_BitsBelow31 s hs
  obtain ⟨mi, hlt, hget⟩ := List.getElem_of_mem hmem
  have hbits : ∀ i, mask.testBit i = true → i < 31 := by
    intro i hi
    apply hb k mi i
    simp only [bitAt, hrow]
    rw [List.getD_eq_getElem _ _ hlt, hget]
    exact hi
  constructor
  · apply Nat.lt_pow_two_of_testBit
    intro i hi
    by_contra hne
    have := hbits i (by simpa using hne)
    omega
  · by_contra hne
    have := hbits 31 (by simpa using hne)
    omega

theorem masks_below_two_pow_31_witness :
    Reach Date.valid exampleStore ∧
      ∀ k row mask, exampleStore.marked k = some row → mask ∈ row →
        mask < 2 ^ 31 ∧ mask.testBit 31 = false :=
  ⟨exampleStore_Reach _ (by decide),
    masks_below_two_pow_31 exampleStore (exampleStore_Reach _ (by decide))⟩

theorem onDay_mark (d : Date) (hd : d.valid) (k : Int) (mi i : Nat) :
    (Op.mark d).onDay k ((mi : Int) + 1) ((i : Int) + 1) =
      (decide (k = int16 d.year) && decide (mi = (d.month - 1).toNat) &&
        decide (i = (d.day - 1).toNat)) := by
  obtain ⟨h1, _, h3, _⟩ := hd
  show decide (int16 d.year = k ∧ d.month = (mi : Int) + 1 ∧ d.day = (i : Int) + 1) = _
  rw [Bool.eq_iff_iff]
  simp only [decide_eq_true_eq, Bool.and_eq_true]
  constructor
  · rintro ⟨a, b, c⟩
    exact ⟨⟨a.symm, by omega⟩, by omega⟩
  · rintro ⟨⟨a, b⟩, c⟩
    exact ⟨a.symm, by omega, by omega⟩

theorem onDay_unmark (d : Date) (hd : d.valid) (k : Int) (mi i : Nat) :
    (Op.unmark d).onDay k ((mi : Int) + 1) ((i : Int) + 1) =
      (decide (k = int16 d.year) && decide (mi = (d.month - 1).toNat) &&
        decide (i = (d.day - 1).toNat)) := by
  obtain ⟨h1, _, h3, _⟩ := hd
  show decide (int16 d.year = k ∧ d.month = (mi : Int) + 1 ∧ d.day = (i : Int) + 1) = _
  rw [Bool.eq_iff_iff]
  simp only [decide_eq_true_eq, Bool.and_eq_true]
  constructor
  · rintro ⟨a, b, c⟩
    exact ⟨⟨a.symm, by omega⟩, by omega⟩
  · rintro ⟨⟨a, b⟩, c⟩
    exact ⟨a.symm, by omega, by omega⟩

/-- Every bit of the store after a run is the state that the calls of the run give to its
day: set by the `Mark` calls on that day, cleared by the `Unmark` calls on it. -/
theorem run_dayAfter (ops : List Op) (s s' : BinaryCalendar) (hs : Rows12 s)
    (hops : ∀ o ∈ ops, o.date.valid) (hrun : run s ops = some s') (k : Int) (mi i : Nat) :
    bitAt s' k mi i = dayAfter k ((mi : Int) + 1) ((i : Int) + 1) (bitAt s k mi i) ops := by
  induction ops generalizing s with
  | nil =>
    simp only [run, Option.some.injEq] at hrun
    subst hrun
    rfl
  | cons o os ih =>
    have ho := hops o (List.mem_cons_self _ _)
    have hos : ∀ o' ∈ os, o'.date.valid := fun o' h => hops o' (List.mem_cons_of_mem _ h)
    cases o with
    | mark d =>
      have ho : d.valid := ho
      obtain ⟨s1, h1, h2, h3⟩ := Mark_bitAt s d hs ho
      have hrun1 : run s1 os = some s' := by
        simp only [run, step, h1] at hrun
        exact hrun
      rw [ih s1 h2 hos hrun1, h3]
      show _ = dayAfter k _ _ (if (Op.mark d).onDay k _ _ then true else bitAt s k mi i) os
      rw [onDay_mark d ho k mi i]
      congr 1
      cases bitAt s k mi i <;>
        cases (decide (k = int16 d.year) && decide (mi = (d.month - 1).toNat) &&
          decide (i = (d.day - 1).toNat)) <;> rfl
    | unmark d =>
      have ho : d.valid := ho
      obtain ⟨s1, h1, h2, h3⟩ := Unmark_bitAt s d hs ho
      have hrun1 : run s1 os = some s' := by
        simp only [run, step, h1] at hrun
        exact hrun
      rw [ih s1 h2 hos hrun1, h3]
      show _ = dayAfter k _ _ (if (Op.unmark d).onDay k _ _ then false else bitAt s k mi i) os
      rw [onDay_unmark d ho k mi i]
      congr 1
      cases bitAt s k mi i <;>
        cases (decide (k = int16 d.year) && decide (mi = (d.month - 1).toNat) &&
          decide (i = (d.day - 1).toNat)) <;> rfl

/-- C11: after any sequence of `Mark`/`Unmark` calls (month 1..12, day 1..31) from the
empty store, for every year `y` with an entry, month `m` in 1..12 and `i` in 0..30, bit
`i` of the stored mask at index `m - 1` is set exactly when day `i + 1` of `(y, m)` is
marked: when the calls of the sequence on that day, the store identifying the year by
`int16(y)`, end with a `Mark` (`dayAfter`), and equivalently when `IsMarked` is true.
Scenario: marking the 31 days of March 2016 gives the mask `0x7FFFFFFF` at index 2,
unmarking March 15 then gives `0x7FFFBFFF`, and the January mask stays 0. -/
theorem bit_encoding (ops : List Op) (hops : ∀ o ∈ ops, o.date.valid) :
    (∃ s, run NewBinaryCalendar ops = some s ∧
      ∀ (y m : Int) (row : List Nat), s.marked (int16 y) = some row → 1 ≤ m → m ≤ 12 →
        ∃ mask, index row (m - 1) = some mask ∧
          ∀ i : Nat, i ≤ 30 →
            mask.testBit i = dayAfter (int16 y) m ((i : Int) + 1) false ops ∧
            (mask.testBit i = true ↔ IsMarked s ⟨y, m, (i : Int) + 1⟩ = some true)) ∧
    (∃ s1 s2, run NewBinaryCalendar marchMarks = some s1 ∧
      s1.marked 2016 = some [0, 0, 0x7FFFFFFF, 0, 0, 0, 0, 0, 0, 0, 0, 0] ∧
      Unmark s1 ⟨2016, 3, 15⟩ = some s2 ∧
      s2.marked 2016 = some [0, 0, 0x7FFFBFFF, 0, 0, 0, 0, 0, 0, 0, 0, 0]) := by
  constructor
  · obtain ⟨s, hrun, h12⟩ := run_Rows12 ops NewBinaryCalendar Rows12_new hops
    refine ⟨s, hrun, ?_⟩
    intro y m row hrow hm1 hm2
    have hlen := h12 _ _ hrow
    have hlt : (m - 1).toNat < row.length := by omega
    have hm : m - 1 = (((m - 1).toNat : Nat) : Int) := by omega
    refine ⟨row[(m - 1).toNat], ?_, ?_⟩
    · unfold index
      rw [if_pos (by omega), List.getElem?_eq_getElem hlt]
    · intro i hi
      constructor
      · have hbit : row[(m - 1).toNat].testBit i = bitAt s (int16 y) (m - 1).toNat i := by
          simp only [bitAt, hrow]
          rw [List.getD_eq_getElem _ _ hlt]
        have hday := run_dayAfter ops NewBinaryCalendar s Rows12_new hops hrun (int16 y)
          (m - 1).toNat i
        have e1 : (((m - 1).toNat : Nat) : Int) + 1 = m := by omega
        rw [bitAt_new, e1] at hday
        rw [hbit, hday]
      · have hd : (⟨y, m, (i : Int) + 1⟩ : Date).day - 1 = ((i : Nat) : Int) := by
          simp only
          omega
        rw [IsMarked_eq s ⟨y, m, (i : Int) + 1⟩ (m - 1).toNat i row hm hd (by omega) hrow hlt]
        simp
  · exact ⟨_, _, rfl, rfl, rfl, rfl⟩

theorem exampleOps_valid : ∀ o ∈ exampleOps, o.date.valid := by
  decide

theorem bit_encoding_witness :
    (∀ o ∈ exampleOps, o.date.valid) ∧
    dayAfter (int16 2016) 3 15 false exampleOps = false ∧
    dayAfter (int16 2016) 3 9 false exampleOps = true ∧
    (∃ s, run NewBinaryCalendar exampleOps = some s ∧
      ∀ (y m : Int) (row : List Nat), s.marked (int16 y) = some row → 1 ≤ m → m ≤ 12 →
        ∃ mask, index row (m - 1) = some mask ∧
          ∀ i : Nat, i ≤ 30 →
            mask.testBit i = dayAfter (int16 y) m ((i : Int) + 1) false exampleOps ∧
            (mask.testBit i = true ↔ IsMarked s ⟨y, m, (i : Int) + 1⟩ = some true)) ∧
    (∃ s1 s2, run NewBinaryCalendar marchMarks = some s1 ∧
      s1.marked 2016 = some [0, 0, 0x7FFFFFFF, 0, 0, 0, 0, 0, 0, 0, 0, 0] ∧
      Unmark s1 ⟨2016, 3, 15⟩ = some s2 ∧
      s2.marked 2016 = some [0, 0, 0x7FFFBFFF, 0, 0, 0, 0, 0, 0, 0, 0, 0]) :=
  ⟨exampleOps_valid, rfl, rfl, (bit_encoding exampleOps exampleOps_valid).1,
    (bit_encoding exampleOps exampleOps_valid).2⟩

/-! ## Which keys have a row -/

theorem Mark_keys (s s' : BinaryCalendar) (d : Date) (h : Mark s d = some s') (k : Int) :
    s'.marked k ≠ none ↔ s.marked k ≠ none ∨ k = int16 d.year := by
  by_cases hk : k = int16 d.year
  · subst hk
    simp only [Mark] at h
    generalize (match s.marked (int16 d.year) with
      | some r => r
      | none => List.replicate 12 0) = row at h
    cases hidx : index row (d.month - 1) with
    | none => simp only [hidx] at h; cases h
    | some old =>
      simp only [hidx, Option.some.injEq] at h
      subst h
      simp [store_marked_same]
  · rw [Mark_marked_other s s' d k h hk]
    simp [hk]

theorem Unmark_keys (s s' : BinaryCalendar) (d : Date) (h : Unmark s d = some s')
    (k : Int) : s'.marked k = none ↔ s.marked k = none := by
  constructor
  · intro hk
    simp only [Unmark] at h
    cases hrow : s.marked (int16 d.year) with
    | none =>
      simp only [hrow, Option.some.injEq] at h
      subst h
      exact hk
    | some row =>
      simp only [hrow] at h
      cases hidx : index row (d.month - 1) with
      | none => simp only [hidx] at h; cases h
      | some old =>
        simp only [hidx, Option.some.injEq] at h
        subst h
        by_cases hkk : k = int16 d.year
        · subst hkk
          rw [store_marked_same] at hk
          cases hk
        · rw [store_marked_other _ _ _ _ hkk] at hk
          exact hk
  · exact Unmark_marked_none s s' d k h

theorem run_keys (ops : List Op) (s s' : BinaryCalendar) (h : run s ops = some s')
    (k : Int) :
    s'.marked k ≠ none ↔
      s.marked k ≠ none ∨ ∃ d, Op.mark d ∈ ops ∧ int16 d.year = k := by
  induction ops generalizing s with
  | nil =>
    simp only [run, Option.some.injEq] at h
    subst h
    simp
  | cons o os ih =>
    simp only [run] at h
    cases hstep : step s o with
    | none => simp only [hstep] at h; cases h
    | some s1 =>
      simp only [hstep] at h
      rw [ih s1 h]
      cases o with
      | mark d =>
        have hm : Mark s d = some s1 := hstep
        rw [Mark_keys s s1 d hm k]
        simp only [List.mem_cons, Op.mark.injEq]
        constructor
        · rintro ((h1 | h1) | ⟨e, he, hk⟩)
          · exact Or.inl h1
          · exact Or.inr ⟨d, Or.inl rfl, h1.symm⟩
          · exact Or.inr ⟨e, Or.inr he, hk⟩
        · rintro (h1 | ⟨e, he | he, hk⟩)
          · exact Or.inl (Or.inl h1)
          · subst he
            exact Or.inl (Or.inr hk.symm)
          · exact Or.inr ⟨e, he, hk⟩
      | unmark d =>
        have hm : Unmark s d = some s1 := hstep
        have hiff := Unmark_keys s s1 d hm k
        simp only [List.mem_cons, ne_eq, hiff]
        constructor
        · rintro (h1 | ⟨e, he, hk⟩)
          · exact Or.inl h1
          · exact Or.inr ⟨e, Or.inr he, hk⟩
        · rintro (h1 | ⟨e, he | he, hk⟩)
          · exact Or.inl h1
          · cases he
          · exact Or.inr ⟨e, he, hk⟩

/-- C13 (amended): after any sequence of `Mark`/`Unmark` calls (month 1..12, day 1..31)
from the empty store, a key has a row exactly when the sequence contains a `Mark` of a
date whose year truncates to that key (`int16(year)`); `Unmark` never adds or removes a
row, and a row whose masks have all become zero stays in the map. -/
theorem lazy_allocation (ops : List Op) (hops : ∀ o ∈ ops, o.date.valid) :
    (∃ s, run NewBinaryCalendar ops = some s ∧
      ∀ k, (s.marked k ≠ none ↔ ∃ d, Op.mark d ∈ ops ∧ int16 d.year = k)) ∧
    (∀ (t t' : BinaryCalendar) (d : Date), Unmark t d = some t' →
      ∀ k, (t'.marked k = none ↔ t.marked k = none)) ∧
    (∃ s, run NewBinaryCalendar [Op.mark ⟨2016, 3, 15⟩, Op.unmark ⟨2016, 3, 15⟩] = some s ∧
      s.marked 2016 = some [0, 0, 0, 0, 0, 0, 0, 0, 0, 0, 0, 0]) := by
  refine ⟨?_, fun t t' d h k => Unmark_keys t t' d h k, ⟨_, rfl, rfl⟩⟩
  obtain ⟨s, hrun, _⟩ := run_Rows12 ops NewBinaryCalendar Rows12_new hops
  refine ⟨s, hrun, fun k => ?_⟩
  rw [run_keys ops NewBinaryCalendar s hrun k]
  simp [NewBinaryCalendar]

theorem lazy_allocation_witness :
    (∀ o ∈ [Op.mark ⟨2016, 3, 15⟩, Op.unmark ⟨2015, 1, 1⟩], o.date.valid) ∧
    ((∃ s, run NewBinaryCalendar [Op.mark ⟨2016, 3, 15⟩, Op.unmark ⟨2015, 1, 1⟩] = some s ∧
      ∀ k, (s.marked k ≠ none ↔
        ∃ d, Op.mark d ∈ [Op.mark ⟨2016, 3, 15⟩, Op.unmark ⟨2015, 1, 1⟩] ∧
          int16 d.year = k)) ∧
    (∀ (t t' : BinaryCalendar) (d : Date), Unmark t d = some t' →
      ∀ k, (t'.marked k = none ↔ t.marked k = none)) ∧
    (∃ s, run NewBinaryCalendar [Op.mark ⟨2016, 3, 15⟩, Op.unmark ⟨2016, 3, 15⟩] = some s ∧
      s.marked 2016 = some [0, 0, 0, 0, 0, 0, 0, 0, 0, 0, 0, 0])) :=
  ⟨by decide,
    lazy_allocation [Op.mark ⟨2016, 3, 15⟩, Op.unmark ⟨2015, 1, 1⟩] (by decide)⟩

/-- C13 (counterexample): after the single call `Mark(67552-03-01)` the sequence contains
no `Mark` of a date in year 2016, yet the map has an entry for year 2016, because
`int16(67552) = 2016`. -/
theorem lazy_allocation_counterexample :
    Date.onCalendar ⟨67552, 3, 1⟩ ∧
    (∀ d, Op.mark d ∈ [Op.mark ⟨67552, 3, 1⟩] → d.year ≠ 2016) ∧
    ∃ s, run NewBinaryCalendar [Op.mark ⟨67552, 3, 1⟩] = some s ∧
      s.marked 2016 = some [0, 0, 1, 0, 0, 0, 0, 0, 0, 0, 0, 0] ∧
      IsMarked s ⟨2016, 3, 1⟩ = some true :=
  ⟨by decide, by simp, _, rfl, rfl, by decide⟩

/-! ## An absent year and a row of zero masks -/

theorem getElem?_replicate_zero (mi : Nat) (h : mi < 12) :
    (List.replicate 12 (0 : Nat))[mi]? = some 0 := by
  rw [List.getElem?_replicate, if_pos h]

/-- C14: for every store `s` and year `y` without an entry in `s`, the store obtained by
adding an entry for `y` with twelve zero masks gives the same result as `s` for
`IsMarked d` for every date `d` (month 1..12, day 1..31), for `GetMonth(y', m)` for every
year `y'` and month `m` in 1..12, and for `GetYear y'` for every year `y'`. -/
theorem absent_year_eq_zero_row (s : BinaryCalendar) (y : Int)
    (hy : s.marked (int16 y) = none) :
    (∀ d : Date, d.valid →
      IsMarked (s.store (int16 y) (List.replicate 12 0)) d = IsMarked s d) ∧
    (∀ y' m : Int, 1 ≤ m → m ≤ 12 →
      GetMonth (s.store (int16 y) (List.replicate 12 0)) y' m = GetMonth s y' m) ∧
    (∀ y' : Int, GetYear (s.store (int16 y) (List.replicate 12 0)) y' = GetYear s y') := by
  refine ⟨?_, ?_, ?_⟩
  · intro d hd
    obtain ⟨mi, di, hmi, hdi, hm, hdd⟩ := valid_fields d hd
    by_cases hk : int16 d.year = int16 y
    · rw [IsMarked_absent s d (hk ▸ hy),
        IsMarked_row _ d mi di (List.replicate 12 0) hm hdd (by omega)
          (by rw [hk, store_marked_same]),
        getElem?_replicate_zero mi hmi]
      simp
    · unfold IsMarked
      rw [store_marked_other _ _ _ _ hk]
  · intro y' m hm1 hm2
    by_cases hk : int16 y' = int16 y
    · rw [GetMonth_absent s y' m (hk ▸ hy),
        GetMonth_row _ y' m (m - 1).toNat (List.replicate 12 0) (by omega)
          (by rw [hk, store_marked_same]) (by simp; omega)]
      rw [List.getElem_replicate, formatDays_zero]
    · unfold GetMonth
      rw [store_marked_other _ _ _ _ hk]
  · intro y'
    by_cases hk : int16 y' = int16 y
    · rw [GetYear_absent s y' (hk ▸ hy),
        GetYear_row _ y' (List.replicate 12 0) (by rw [hk, store_marked_same]) (by simp)]
      simp only [getD_replicate_zero, formatDays_zero]
      simp
    · unfold GetYear
      rw [store_marked_other _ _ _ _ hk]

theorem absent_year_eq_zero_row_witness :
    exampleStore.marked (int16 2015) = none ∧
    (∀ d : Date, d.valid →
      IsMarked (exampleStore.store (int16 2015) (List.replicate 12 0)) d =
        IsMarked exampleStore d) ∧
    (∀ y' m : Int, 1 ≤ m → m ≤ 12 →
      GetMonth (exampleStore.store (int16 2015) (List.replicate 12 0)) y' m =
        GetMonth exampleStore y' m) ∧
    (∀ y' : Int, GetYear (exampleStore.store (int16 2015) (List.replicate 12 0)) y' =
      GetYear exampleStore y') :=
  ⟨rfl, absent_year_eq_zero_row exampleStore 2015 rfl⟩

/-! ## No operation panics on a reachable store -/

theorem index_some_of_length (row : List Nat) (m : Int) (hlen : row.length = 12)
    (hm1 : 1 ≤ m) (hm2 : m ≤ 12) : ∃ v, index row (m - 1) = some v := by
  unfold index
  rw [if_pos (by omega)]
  exact ⟨row[(m - 1).toNat], List.getElem?_eq_getElem (by omega)⟩

/-- C15: every year entry of a store reachable from the empty store by `Mark`/`Unmark`
calls holds exactly 12 masks, and on such a store `Mark`, `Unmark` and `IsMarked` on any
date with month 1..12, `GetMonth(y, m)` for any year `y` and month `m` in 1..12, and
`GetYear y` for any year `y` return a result: no index is out of range. -/
theorem no_operation_fails (s : BinaryCalendar) (hs : Reach Date.valid s) :
    Rows12 s ∧
    (∀ d : Date, 1 ≤ d.month → d.month ≤ 12 →
      (∃ s', Mark s d = some s') ∧ (∃ s', Unmark s d = some s') ∧
        (∃ b, IsMarked s d = some b)) ∧
    (∀ y m : Int, 1 ≤ m → m ≤ 12 → ∃ r, GetMonth s y m = some r) ∧
    (∀ y : Int, ∃ r, GetYear s y = some r) := by
  have h12 := Reach_Rows12 s hs
  refine ⟨h12, ?_, ?_, ?_⟩
  · intro d hm1 hm2
    refine ⟨?_, ?_, ?_⟩
    · have hlen : (match s.marked (int16 d.year) with
          | some r => r
          | none => List.replicate 12 0).length = 12 := by
        cases hrow : s.marked (int16 d.year) with
        | none => simp
        | some r => exact h12 _ _ hrow
      obtain ⟨v, hv⟩ := index_some_of_length _ d.month hlen hm1 hm2
      simp only [Mark, hv]
      exact ⟨_, rfl⟩
    · cases hrow : s.marked (int16 d.year) with
      | none => exact ⟨s, Unmark_absent s d hrow⟩
      | some r =>
        obtain ⟨v, hv⟩ := index_some_of_length r d.month (h12 _ _ hrow) hm1 hm2
        simp only [Unmark, hrow, hv]
        exact ⟨_, rfl⟩
    · cases hrow : s.marked (int16 d.year) with
      | none => exact ⟨false, IsMarked_absent s d hrow⟩
      | some r =>
        obtain ⟨v, hv⟩ := index_some_of_length r d.month (h12 _ _ hrow) hm1 hm2
        simp only [IsMarked, hrow, hv]
        exact ⟨_, rfl⟩
  · intro y m hm1 hm2
    cases hrow : s.marked (int16 y) with
    | none => exact ⟨[], GetMonth_absent s y m hrow⟩
    | some r =>
      have hlen := h12 _ _ hrow
      exact ⟨_, GetMonth_row s y m (m - 1).toNat r (by omega) hrow (by omega)⟩
  · intro y
    cases hrow : s.marked (int16 y) with
    | none => exact ⟨[], GetYear_absent s y hrow⟩
    | some r =>
      have hlen := h12 _ _ hrow
      exact ⟨_, GetYear_row s y r hrow (by omega)⟩

theorem no_operation_fails_witness :
    Reach Date.valid exampleStore ∧
    (Rows12 exampleStore ∧
    (∀ d : Date, 1 ≤ d.month → d.month ≤ 12 →
      (∃ s', Mark exampleStore d = some s') ∧ (∃ s', Unmark exampleStore d = some s') ∧
        (∃ b, IsMarked exampleStore d = some b)) ∧
    (∀ y m : Int, 1 ≤ m → m ≤ 12 → ∃ r, GetMonth exampleStore y m = some r) ∧
    (∀ y : Int, ∃ r, GetYear exampleStore y = some r)) :=
  ⟨exampleStore_Reach _ (by decide),
    no_operation_fails exampleStore (exampleStore_Reach _ (by decide))⟩


/-! ## The frame of `Unmark` -/

theorem and_xor_eq_and_not (old di : Nat) (hold : old < 2 ^ 32) :
    old &&& (old ^^^ 2 ^ di) = old &&& (4294967295 ^^^ 2 ^ di) := by
  apply Nat.eq_of_testBit_eq
  intro j
  have h32 : (4294967295 : Nat) = 2 ^ 32 - 1 := by norm_num
  rw [testBit_clear, Nat.testBit_and, Nat.testBit_xor, h32, Nat.testBit_two_pow_sub_one,
    Nat.testBit_two_pow]
  by_cases hj : j < 32
  · cases old.testBit j <;> by_cases hij : di = j <;> simp [hj, hij]
  · have hz : old.testBit j = false := by
      apply Nat.testBit_lt_two_pow
      calc old < 2 ^ 32 := hold
        _ ≤ 2 ^ j := Nat.pow_le_pow_right (by norm_num) (by omega)
    simp [hz]

/-- C16: for every store with an entry for the year of `d` and every date `d` with month
1..12 and day 1..31, a successful `Unmark d` replaces the mask of the month of `d` by
`old AND (old XOR bit)`, which for a 32-bit mask is `old AND NOT bit`: bit `day - 1` is
cleared and every other bit keeps its value; the masks of all other months and the rows
of all other keys are unchanged. `Unmark d` is successful when the rows hold 12 masks. -/
theorem unmark_one_bit (s : BinaryCalendar) (d : Date) (row : List Nat) (hd : d.valid)
    (hrow : s.marked (int16 d.year) = some row) :
    (Rows12 s → ∃ s', Unmark s d = some s') ∧
    ∀ s', Unmark s d = some s' →
      ∃ (row' : List Nat) (old new : Nat),
        index row (d.month - 1) = some old ∧
        s'.marked (int16 d.year) = some row' ∧ row'.length = row.length ∧
        index row' (d.month - 1) = some new ∧
        new = old &&& (old ^^^ shl32 1 (uint32 (d.day - 1))) ∧
        (old < 2 ^ 32 → new = old &&& (4294967295 ^^^ shl32 1 (uint32 (d.day - 1)))) ∧
        new.testBit (d.day - 1).toNat = false ∧
        (∀ j : Nat, j ≠ (d.day - 1).toNat → new.testBit j = old.testBit j) ∧
        (∀ m' : Int, m' ≠ d.month → index row' (m' - 1) = index row (m' - 1)) ∧
        (∀ k : Int, k ≠ int16 d.year → s'.marked k = s.marked k) := by
  constructor
  · intro hs
    obtain ⟨s', h1, _⟩ := Unmark_bitAt s d hs hd
    exact ⟨s', h1⟩
  · intro s' h
    obtain ⟨mi, di, hlt, hdi, hm, hdd, hs'⟩ := Unmark_inv s s' d row hd hrow h
    have hbit : shl32 1 (uint32 (d.day - 1)) = 2 ^ di := by
      rw [hdd, uint32_natCast di (by omega), shl32_one di (by omega)]
    have hdi' : (d.day - 1).toNat = di := by omega
    refine ⟨row.set mi (row[mi] &&& (row[mi] ^^^ 2 ^ di)), row[mi],
      row[mi] &&& (row[mi] ^^^ 2 ^ di), ?_, ?_, ?_, ?_, ?_, ?_, ?_, ?_, ?_, ?_⟩
    · rw [hm, index_natCast, List.getElem?_eq_getElem hlt]
    · rw [hs', store_marked_same]
    · simp
    · rw [hm, index_natCast, List.getElem?_set, if_pos rfl, if_pos hlt]
    · rw [hbit]
    · intro hold
      rw [hbit]
      exact and_xor_eq_and_not _ di hold
    · rw [hdi']
      exact testBit_clear_self _ _
    · intro j hj
      rw [testBit_clear]
      have : di ≠ j := by omega
      simp [this]
    · intro m' hm'
      unfold index
      by_cases h0 : 0 ≤ m' - 1
      · rw [if_pos h0, if_pos h0, List.getElem?_set, if_neg (by omega)]
      · rw [if_neg h0, if_neg h0]
    · intro k hk
      rw [hs', store_marked_other _ _ _ _ hk]

theorem unmark_one_bit_witness :
    Date.valid ⟨2016, 3, 15⟩ ∧
    exampleStore.marked (int16 2016) = some [0, 0, 16384, 0, 0, 0, 0, 0, 0, 0, 0, 0] ∧
    ((Rows12 exampleStore → ∃ s', Unmark exampleStore ⟨2016, 3, 15⟩ = some s') ∧
    ∀ s', Unmark exampleStore ⟨2016, 3, 15⟩ = some s' →
      ∃ (row' : List Nat) (old new : Nat),
        index [0, 0, 16384, 0, 0, 0, 0, 0, 0, 0, 0, 0] (3 - 1) = some old ∧
        s'.marked (int16 2016) = some row' ∧
        row'.length = [0, 0, 16384, 0, 0, 0, 0, 0, 0, 0, 0, 0].length ∧
        index row' (3 - 1) = some new ∧
        new = old &&& (old ^^^ shl32 1 (uint32 (15 - 1))) ∧
        (old < 2 ^ 32 → new = old &&& (4294967295 ^^^ shl32 1 (uint32 (15 - 1)))) ∧
        new.testBit ((15 : Int) - 1).toNat = false ∧
        (∀ j : Nat, j ≠ ((15 : Int) - 1).toNat → new.testBit j = old.testBit j) ∧
        (∀ m' : Int, m' ≠ 3 →
          index row' (m' - 1) = index [0, 0, 16384, 0, 0, 0, 0, 0, 0, 0, 0, 0] (m' - 1)) ∧
        (∀ k : Int, k ≠ int16 2016 → s'.marked k = exampleStore.marked k)) :=
  ⟨by decide, rfl, unmark_one_bit exampleStore ⟨2016, 3, 15⟩ _ (by decide) rfl⟩


/-! ## The loop of `formatDays` and the scan of all bit positions -/

/-- C18: for every 32-bit mask with bit 31 clear, the loop of `formatDays`, bounded by
`floor(log2(mask))`, returns the same sequence as the alternative that always scans the
bit positions 0 to 30 in order and emits day `i + 1` for every set bit `i`. -/
theorem formatDays_eq_scan (y m : Int) (mask : Nat) (h32 : mask < 2 ^ 32)
    (h31 : mask.testBit 31 = false) : formatDays y m mask = formatDaysScan y m mask := by
  rw [formatDays_eq y m mask h32]
  unfold formatDaysScan
  rw [foldl_append_filter (fun (i : Nat) => timeDate y m ((i : Int) + 1))
    (fun i => mask &&& shl32 1 i = shl32 1 i), List.nil_append]
  congr 1
  rw [List.range_succ, List.filter_append]
  have hlast : List.filter (fun i => mask.testBit i) [31] = [] := by
    simp [h31]
  rw [hlast, List.append_nil]
  apply List.filter_congr
  intro i hi
  rw [List.mem_range] at hi
  rw [shl32_one i (by omega)]
  by_cases hb : mask.testBit i = true
  · simp [hb, (and_two_pow_eq_iff mask i).2 hb]
  · have : ¬ (mask &&& 2 ^ i = 2 ^ i) := fun e => hb ((and_two_pow_eq_iff mask i).1 e)
    simp [hb, this]

theorem formatDays_eq_scan_witness :
    (2147467263 : Nat) < 2 ^ 32 ∧ Nat.testBit 2147467263 31 = false ∧
      formatDays 2016 3 2147467263 = formatDaysScan 2016 3 2147467263 :=
  ⟨by decide, by decide, formatDays_eq_scan 2016 3 2147467263 (by decide) (by decide)⟩


/-! ## Years that share a key -/

theorem int16_congr (a b : Int) (h : (a - b) % 65536 = 0) : int16 a = int16 b := by
  unfold int16
  omega

theorem int16_add_mul (y k : Int) : int16 (y + 65536 * k) = int16 y := by
  unfold int16
  omega

theorem IsMarked_congr (s : BinaryCalendar) (d e : Date) (hy : int16 e.year = int16 d.year)
    (hm : e.month = d.month) (hd : e.day = d.day) : IsMarked s e = IsMarked s d := by
  unfold IsMarked
  rw [hy, hm, hd]

theorem IsMarked_of_Mark (s s' : BinaryCalendar) (d : Date) (hd : d.valid)
    (h : Mark s d = some s') : IsMarked s' d = some true := by
  obtain ⟨row, mi, di, hlt, hdi, hm, hdd, _, hs'⟩ := Mark_inv s s' d hd h
  have hrow' : s'.marked (int16 d.year) =
      some (row.set mi (row[mi]?.getD 0 ||| 2 ^ di)) := by
    rw [hs', store_marked_same]
  rw [IsMarked_eq s' d mi di _ hm hdd (by omega) hrow' (by simpa using hlt),
    List.getElem_set_self, testBit_set]
  simp

theorem IsMarked_of_Unmark (s s' : BinaryCalendar) (d : Date) (hd : d.valid)
    (h : Unmark s d = some s') : IsMarked s' d = some false := by
  cases hrow : s.marked (int16 d.year) with
  | none =>
    rw [Unmark_absent s d hrow] at h
    cases h
    exact IsMarked_absent s d hrow
  | some row =>
    obtain ⟨mi, di, hlt, hdi, hm, hdd, hs'⟩ := Unmark_inv s s' d row hd hrow h
    have hrow' : s'.marked (int16 d.year) =
        some (row.set mi (row[mi] &&& (row[mi] ^^^ 2 ^ di))) := by
      rw [hs', store_marked_same]
    rw [IsMarked_eq s' d mi di _ hm hdd (by omega) hrow' (by simpa using hlt),
      List.getElem_set_self, testBit_clear_self]

/-- C19 (amended): the store keys years by their 16-bit signed truncation. For every
store and every two dates `d`, `e` (month 1..12, day 1..31) with the same month and day
whose years are congruent modulo 65536, `IsMarked e` is true after a successful `Mark d`
and false after a successful `Unmark d`. `GetYear(y + 65536 * k)` decodes the same row of
masks as `GetYear y`; when `time.Date` represents both years without overflow and every
set bit of that row is a day that exists in its month both in year `y` and in year
`y + 65536 * k`, it returns the same months and days as `GetYear y`, with the year field
of each date set to the requested year. -/
theorem year_aliasing (s : BinaryCalendar) (y k : Int) :
    (∀ (s' : BinaryCalendar) (d e : Date), d.valid → e.month = d.month → e.day = d.day →
      (e.year - d.year) % 65536 = 0 →
      (Mark s d = some s' → IsMarked s' e = some true) ∧
      (Unmark s d = some s' → IsMarked s' e = some false)) ∧
    (s.marked (int16 y) = none →
      GetYear s y = some [] ∧ GetYear s (y + 65536 * k) = some []) ∧
    (∀ row : List Nat, s.marked (int16 y) = some row → 12 ≤ row.length →
      InTimeRange y → InTimeRange (y + 65536 * k) →
      (∀ mi : Nat, mi < 12 →
        MaskFits y ((mi : Int) + 1) (row.getD mi 0) ∧
          MaskFits (y + 65536 * k) ((mi : Int) + 1) (row.getD mi 0)) →
      ∃ r, GetYear s y = some r ∧ (∀ d ∈ r, d.year = y) ∧
        GetYear s (y + 65536 * k) =
          some (r.map (fun d => (⟨y + 65536 * k, d.month, d.day⟩ : Date)))) := by
  refine ⟨?_, ?_, ?_⟩
  · intro s' d e hd hm hdd hy
    have hk := int16_congr e.year d.year hy
    constructor
    · intro h
      rw [IsMarked_congr s' d e hk hm hdd]
      exact IsMarked_of_Mark s s' d hd h
    · intro h
      rw [IsMarked_congr s' d e hk hm hdd]
      exact IsMarked_of_Unmark s s' d hd h
  · intro hrow
    exact ⟨GetYear_absent s y hrow,
      GetYear_absent s _ (by rw [int16_add_mul]; exact hrow)⟩
  · intro row hrow hlen _ _ hfit
    have hmonth : ∀ mi : Nat, mi < 12 → (1 : Int) ≤ (mi : Int) + 1 ∧ (mi : Int) + 1 ≤ 12 := by
      intro mi h
      omega
    have e1 : ∀ mi ∈ List.range 12, formatDays y ((mi : Int) + 1) (row.getD mi 0) =
        ((List.range 32).filter (fun i => (row.getD mi 0).testBit i)).map
          (fun (i : Nat) => (⟨y, (mi : Int) + 1, (i : Int) + 1⟩ : Date)) := by
      intro mi hmi
      rw [List.mem_range] at hmi
      exact formatDays_fits y _ _ (hmonth mi hmi)
        (fun i hb => testBit_of_MaskFits _ _ _ i (hfit mi hmi).1 hb)
    have e2 : ∀ mi ∈ List.range 12,
        formatDays (y + 65536 * k) ((mi : Int) + 1) (row.getD mi 0) =
        ((List.range 32).filter (fun i => (row.getD mi 0).testBit i)).map
          (fun (i : Nat) => (⟨y + 65536 * k, (mi : Int) + 1, (i : Int) + 1⟩ : Date)) := by
      intro mi hmi
      rw [List.mem_range] at hmi
      exact formatDays_fits _ _ _ (hmonth mi hmi)
        (fun i hb => testBit_of_MaskFits _ _ _ i (hfit mi hmi).2 hb)
    refine ⟨_, GetYear_row s y row hrow hlen, ?_, ?_⟩
    · intro d hd
      rw [List.mem_flatMap] at hd
      obtain ⟨mi, hmi, hd⟩ := hd
      rw [e1 mi hmi, List.mem_map] at hd
      obtain ⟨i, _, rfl⟩ := hd
      rfl
    · rw [GetYear_row s (y + 65536 * k) row (by rw [int16_add_mul]; exact hrow) hlen]
      congr 1
      rw [List.map_flatMap]
      apply List.flatMap_congr
      intro mi hmi
      rw [e1 mi hmi, e2 mi hmi, List.map_map]
      rfl

theorem year_aliasing_witness :
    twoDayStore.marked (int16 2016) = some [0, 0, 257, 0, 0, 0, 0, 0, 0, 0, 0, 0] ∧
    InTimeRange 2016 ∧ InTimeRange (2016 + 65536 * 1) ∧
    ∃ r, GetYear twoDayStore 2016 = some r ∧ (∀ d ∈ r, d.year = 2016) ∧
      GetYear twoDayStore (2016 + 65536 * 1) =
        some (r.map (fun d => (⟨2016 + 65536 * 1, d.month, d.day⟩ : Date))) :=
  ⟨rfl, by decide, by decide,
    (year_aliasing twoDayStore 2016 1).2.2 _ rfl (by decide) (by decide) (by decide) (by
      intro mi hmi
      unfold MaskFits
      have h : mi = 0 ∨ mi = 1 ∨ mi = 2 ∨ mi = 3 ∨ mi = 4 ∨ mi = 5 ∨ mi = 6 ∨ mi = 7 ∨
          mi = 8 ∨ mi = 9 ∨ mi = 10 ∨ mi = 11 := by omega
      rcases h with h | h | h | h | h | h | h | h | h | h | h | h <;> subst h <;> decide)⟩

/-- Closed form of `GetYear` on a row of twelve masks, written out month by month. -/
theorem GetYear_twelve (s : BinaryCalendar) (y : Int)
    (a0 a1 a2 a3 a4 a5 a6 a7 a8 a9 a10 a11 : Nat)
    (hrow : s.marked (int16 y) = some [a0, a1, a2, a3, a4, a5, a6, a7, a8, a9, a10, a11]) :
    GetYear s y =
      some (formatDays y 1 a0 ++ (formatDays y 2 a1 ++ (formatDays y 3 a2 ++
        (formatDays y 4 a3 ++ (formatDays y 5 a4 ++ (formatDays y 6 a5 ++
        (formatDays y 7 a6 ++ (formatDays y 8 a7 ++ (formatDays y 9 a8 ++
        (formatDays y 10 a9 ++ (formatDays y 11 a10 ++ formatDays y 12 a11))))))))))) := by
  rw [GetYear_row s y _ hrow (by simp)]
  simp [List.range, List.range.loop, List.flatMap_cons]

/-- C19 (counterexample): after `Mark(2004-02-29)` on the empty store `GetYear(2004)`
returns 2004-02-29, but `GetYear(2004 + 65536 * 11)` returns 722900-03-01: year 722900
has no February 29, so the months and days are not the same. -/
theorem year_aliasing_counterexample :
    Date.onCalendar ⟨2004, 2, 29⟩ ∧ (2004 + 65536 * 11 : Int) = 722900 ∧
    InTimeRange 2004 ∧ InTimeRange 722900 ∧
    ∃ s, Mark NewBinaryCalendar ⟨2004, 2, 29⟩ = some s ∧
      GetYear s 2004 = some [⟨2004, 2, 29⟩] ∧
      GetYear s 722900 = some [⟨722900, 3, 1⟩] := by
  refine ⟨by decide, by norm_num, by decide, by decide, _, rfl, ?_, ?_⟩
  · rw [GetYear_twelve _ 2004 0 268435456 0 0 0 0 0 0 0 0 0 0 rfl,
      formatDays_eq 2004 2 268435456 (by decide)]
    repeat rw [formatDays_zero]
    decide
  · rw [GetYear_twelve _ 722900 0 268435456 0 0 0 0 0 0 0 0 0 0 rfl,
      formatDays_eq 722900 2 268435456 (by decide)]
    repeat rw [formatDays_zero]
    decide


/-! ## Commutation of calls -/

theorem updateRow_length (f : Nat → Nat) (row row' : List Nat) (mi : Nat)
    (h : updateRow f row mi = some row') : row'.length = row.length := by
  unfold updateRow at h
  cases hget : row[mi]? with
  | none => simp only [hget] at h; cases h
  | some old =>
    simp only [hget, Option.some.injEq] at h
    subst h
    simp

theorem updateRow_of_lt (f : Nat → Nat) (row : List Nat) (mi : Nat) (h : mi < row.length) :
    updateRow f row mi = some (row.set mi (f row[mi])) := by
  unfold updateRow
  rw [List.getElem?_eq_getElem h]

theorem updateRow_of_ge (f : Nat → Nat) (row : List Nat) (mi : Nat) (h : row.length ≤ mi) :
    updateRow f row mi = none := by
  unfold updateRow
  rw [List.getElem?_eq_none h]

theorem updateRow_comm (f g : Nat → Nat) (hfg : ∀ x, g (f x) = f (g x)) (row : List Nat)
    (m1 m2 : Nat) :
    (updateRow f row m1).bind (fun r => updateRow g r m2) =
      (updateRow g row m2).bind (fun r => updateRow f r m1) := by
  by_cases h1 : m1 < row.length
  · by_cases h2 : m2 < row.length
    · rw [updateRow_of_lt f row m1 h1, updateRow_of_lt g row m2 h2]
      simp only [Option.some_bind]
      rw [updateRow_of_lt g _ m2 (by simpa using h2),
        updateRow_of_lt f _ m1 (by simpa using h1)]
      congr 1
      by_cases hm : m1 = m2
      · subst hm
        simp only [List.getElem_set_self, List.set_set]
        rw [hfg]
      · have hm' : m2 ≠ m1 := fun e => hm e.symm
        rw [List.getElem_set_ne hm, List.getElem_set_ne hm']
        exact List.set_comm _ _ row hm
    · rw [updateRow_of_ge g row m2 (by omega), updateRow_of_lt f row m1 h1]
      simp only [Option.some_bind, Option.none_bind]
      exact updateRow_of_ge g _ m2 (by simp; omega)
  · rw [updateRow_of_ge f row m1 (by omega)]
    simp only [Option.none_bind]
    by_cases h2 : m2 < row.length
    · rw [updateRow_of_lt g row m2 h2]
      simp only [Option.some_bind]
      exact (updateRow_of_ge f _ m1 (by simp; omega)).symm
    · rw [updateRow_of_ge g row m2 (by omega)]
      rfl

theorem store_comm (s : BinaryCalendar) (k1 k2 : Int) (r1 r2 : List Nat) (h : k1 ≠ k2) :
    (s.store k1 r1).store k2 r2 = (s.store k2 r2).store k1 r1 := by
  unfold BinaryCalendar.store
  congr 1
  funext k'
  by_cases h1 : k' = k1
  · subst h1
    simp [h]
  · by_cases h2 : k' = k2
    · subst h2
      simp [h1]
    · simp [h1, h2]

/-- `Mark` as a row update at the key of the date. -/
theorem Mark_updateRow (s : BinaryCalendar) (d : Date) (mi di : Nat)
    (hm : d.month - 1 = (mi : Int)) (hd : d.day - 1 = (di : Int)) (hdi : di < 32) :
    Mark s d =
      (updateRow (fun x => x ||| 2 ^ di) ((s.marked (int16 d.year)).getD (List.replicate 12 0))
        mi).map (s.store (int16 d.year)) := by
  have hrow : (match s.marked (int16 d.year) with
      | some r => r
      | none => List.replicate 12 0) =
      (s.marked (int16 d.year)).getD (List.replicate 12 0) := by
    cases s.marked (int16 d.year) <;> rfl
  unfold Mark updateRow
  simp only [hrow, hm, hd, index_natCast, Int.toNat_ofNat]
  rw [uint32_natCast di (by omega), shl32_one di hdi]
  cases ((s.marked (int16 d.year)).getD (List.replicate 12 0))[mi]? <;> rfl

/-- `Unmark` as a row update when the key of the date is present. -/
theorem Unmark_updateRow (s : BinaryCalendar) (d : Date) (mi di : Nat) (row : List Nat)
    (hm : d.month - 1 = (mi : Int)) (hd : d.day - 1 = (di : Int)) (hdi : di < 32)
    (hrow : s.marked (int16 d.year) = some row) :
    Unmark s d =
      (updateRow (fun x => x &&& (x ^^^ 2 ^ di)) row mi).map (s.store (int16 d.year)) := by
  unfold Unmark updateRow
  simp only [hrow, hm, hd, index_natCast, Int.toNat_ofNat]
  rw [uint32_natCast di (by omega), shl32_one di hdi]
  cases row[mi]? <;> rfl

theorem or_bits_comm (i j x : Nat) : (x ||| 2 ^ i) ||| 2 ^ j = (x ||| 2 ^ j) ||| 2 ^ i := by
  rw [Nat.or_assoc, Nat.or_assoc, Nat.or_comm (2 ^ i)]

theorem clear_bits_comm (i j x : Nat) :
    (x &&& (x ^^^ 2 ^ i)) &&& ((x &&& (x ^^^ 2 ^ i)) ^^^ 2 ^ j) =
      (x &&& (x ^^^ 2 ^ j)) &&& ((x &&& (x ^^^ 2 ^ j)) ^^^ 2 ^ i) := by
  apply Nat.eq_of_testBit_eq
  intro b
  rw [testBit_clear, testBit_clear, testBit_clear, testBit_clear]
  cases x.testBit b <;> cases decide (i = b) <;> cases decide (j = b) <;> rfl

theorem updateStore_present (f : Nat → Nat) (fresh : Option (List Nat))
    (s : BinaryCalendar) (k : Int) (mi : Nat) (row : List Nat)
    (hrow : s.marked k = some row) :
    updateStore f fresh s k mi = (updateRow f row mi).map (s.store k) := by
  simp only [updateStore, hrow]

theorem updateStore_fresh (f : Nat → Nat) (z : List Nat) (s : BinaryCalendar) (k : Int)
    (mi : Nat) (hrow : s.marked k = none) :
    updateStore f (some z) s k mi = (updateRow f z mi).map (s.store k) := by
  simp only [updateStore, hrow]

theorem updateStore_skip (f : Nat → Nat) (s : BinaryCalendar) (k : Int) (mi : Nat)
    (hrow : s.marked k = none) : updateStore f none s k mi = some s := by
  simp only [updateStore, hrow]

theorem Mark_updateStore (s : BinaryCalendar) (d : Date) (mi di : Nat)
    (hm : d.month - 1 = (mi : Int)) (hd : d.day - 1 = (di : Int)) (hdi : di < 32) :
    Mark s d =
      updateStore (fun x => x ||| 2 ^ di) (some (List.replicate 12 0)) s (int16 d.year) mi := by
  rw [Mark_updateRow s d mi di hm hd hdi]
  cases hrow : s.marked (int16 d.year) with
  | none => rw [updateStore_fresh _ _ s _ mi hrow]; rfl
  | some row => rw [updateStore_present _ _ s _ mi row hrow]; rfl

theorem Unmark_updateStore (s : BinaryCalendar) (d : Date) (mi di : Nat)
    (hm : d.month - 1 = (mi : Int)) (hd : d.day - 1 = (di : Int)) (hdi : di < 32) :
    Unmark s d =
      updateStore (fun x => x &&& (x ^^^ 2 ^ di)) none s (int16 d.year) mi := by
  cases hrow : s.marked (int16 d.year) with
  | none => rw [Unmark_absent s d hrow, updateStore_skip _ s _ mi hrow]
  | some row =>
    rw [Unmark_updateRow s d mi di row hm hd hdi hrow, updateStore_present _ _ s _ mi row hrow]

/-- The three possible outcomes of a store update, each with the row it started from. -/
theorem updateStore_effect (f : Nat → Nat) (fresh : Option (List Nat)) (s : BinaryCalendar)
    (k : Int) (mi : Nat) :
    (s.marked k = none ∧ fresh = none ∧ updateStore f fresh s k mi = some s) ∨
      ∃ row, (s.marked k = some row ∨ (s.marked k = none ∧ fresh = some row)) ∧
        updateStore f fresh s k mi = (updateRow f row mi).map (s.store k) := by
  cases hrow : s.marked k with
  | some row => exact Or.inr ⟨row, Or.inl rfl, updateStore_present f fresh s k mi row hrow⟩
  | none =>
    cases fresh with
    | none => exact Or.inl ⟨rfl, rfl, updateStore_skip f s k mi hrow⟩
    | some z => exact Or.inr ⟨z, Or.inr ⟨rfl, rfl⟩, updateStore_fresh f z s k mi hrow⟩

theorem updateStore_store_other (g : Nat → Nat) (fresh : Option (List Nat))
    (s : BinaryCalendar) (k1 k2 : Int) (r1 : List Nat) (m2 : Nat) (h : k2 ≠ k1) :
    updateStore g fresh (s.store k1 r1) k2 m2 =
      (updateStore g fresh s k2 m2).map (fun t => t.store k1 r1) := by
  have hother : (s.store k1 r1).marked k2 = s.marked k2 := store_marked_other _ _ _ _ h
  have hmap : ∀ o : Option (List Nat),
      o.map ((s.store k1 r1).store k2) =
        (o.map (s.store k2)).map (fun t => t.store k1 r1) := by
    intro o
    cases o with
    | none => rfl
    | some r =>
      simp only [Option.map_some']
      rw [store_comm s k2 k1 r r1 h]
  rcases updateStore_effect g fresh s k2 m2 with ⟨h1, h2, h3⟩ | ⟨row, h1 | ⟨h1, h2⟩, h3⟩
  · subst h2
    rw [h3, updateStore_skip g _ k2 m2 (by rw [hother]; exact h1)]
    rfl
  · rw [h3, updateStore_present g fresh _ k2 m2 row (by rw [hother]; exact h1)]
    exact hmap _
  · subst h2
    rw [h3, updateStore_fresh g row _ k2 m2 (by rw [hother]; exact h1)]
    exact hmap _

theorem updateStore_same_key (f g : Nat → Nat) (fresh : Option (List Nat))
    (s : BinaryCalendar) (k : Int) (m1 m2 : Nat) :
    (s.marked k = none ∧ fresh = none ∧
      (updateStore f fresh s k m1).bind (fun t => updateStore g fresh t k m2) = some s) ∨
    ∃ row, (updateStore f fresh s k m1).bind (fun t => updateStore g fresh t k m2) =
      ((updateRow f row m1).bind (fun r => updateRow g r m2)).map (s.store k) ∧
      (s.marked k = some row ∨ (s.marked k = none ∧ fresh = some row)) := by
  have key : ∀ row : List Nat,
      ((updateRow f row m1).map (s.store k)).bind (fun t => updateStore g fresh t k m2) =
        ((updateRow f row m1).bind (fun r => updateRow g r m2)).map (s.store k) := by
    intro row
    cases hu : updateRow f row m1 with
    | none => rfl
    | some r1 =>
      simp only [Option.map_some', Option.some_bind]
      rw [updateStore_present g fresh _ k m2 r1 (store_marked_same s k r1)]
      cases hv : updateRow g r1 m2 with
      | none => rfl
      | some r2 =>
        simp only [Option.map_some']
        rw [store_store]
  rcases updateStore_effect f fresh s k m1 with ⟨h1, h2, h3⟩ | ⟨row, h1, h3⟩
  · left
    refine ⟨h1, h2, ?_⟩
    subst h2
    rw [h3]
    simp only [Option.some_bind]
    exact updateStore_skip g s k m2 h1
  · right
    refine ⟨row, ?_, h1⟩
    rw [h3]
    exact key row

theorem updateStore_comm (f g : Nat → Nat) (hfg : ∀ x, g (f x) = f (g x))
    (fresh : Option (List Nat)) (s : BinaryCalendar) (k1 k2 : Int) (m1 m2 : Nat) :
    (updateStore f fresh s k1 m1).bind (fun t => updateStore g fresh t k2 m2) =
      (updateStore g fresh s k2 m2).bind (fun t => updateStore f fresh t k1 m1) := by
  by_cases hk : k1 = k2
  · subst hk
    rcases updateStore_same_key f g fresh s k1 m1 m2 with ⟨a1, a2, a3⟩ | ⟨row, a3, a1⟩ <;>
      rcases updateStore_same_key g f fresh s k1 m2 m1 with ⟨b1, b2, b3⟩ | ⟨row', b3, b1⟩
    · rw [a3, b3]
    · exfalso
      rcases b1 with b1 | ⟨_, b1⟩
      · rw [a1] at b1
        cases b1
      · rw [a2] at b1
        cases b1
    · exfalso
      rcases a1 with a1 | ⟨_, a1⟩
      · rw [b1] at a1
        cases a1
      · rw [b2] at a1
        cases a1
    · have hrows : row = row' := by
        rcases a1 with a1 | ⟨a1, a2⟩ <;> rcases b1 with b1 | ⟨b1, b2⟩
        · rw [a1] at b1
          cases b1
          rfl
        · rw [a1] at b1
          cases b1
        · rw [b1] at a1
          cases a1
        · rw [a2] at b2
          cases b2
          rfl
      subst hrows
      rw [a3, b3, updateRow_comm f g hfg row m1 m2]
  · have hk' : k2 ≠ k1 := fun e => hk e.symm
    have hA : ∀ t, (updateStore g fresh s k2 m2 = some t) →
        updateStore f fresh t k1 m1 =
          (updateStore f fresh s k1 m1).bind (fun u => (updateStore g fresh u k2 m2)) := by
      intro t ht
      rcases updateStore_effect g fresh s k2 m2 with ⟨_, _, h3⟩ | ⟨row2, _, h3⟩
      · rw [h3] at ht
        cases ht
        cases hu : updateStore f fresh s k1 m1 with
        | none => rfl
        | some u =>
          simp only [Option.some_bind]
          rcases updateStore_effect f fresh s k1 m1 with ⟨_, _, e3⟩ | ⟨row1, _, e3⟩
          · rw [e3] at hu
            cases hu
            exact h3.symm
          · rw [e3] at hu
            cases hr : updateRow f row1 m1 with
            | none => rw [hr] at hu; cases hu
            | some r1 =>
              rw [hr] at hu
              simp only [Option.map_some', Option.some.injEq] at hu
              subst hu
              rw [updateStore_store_other g fresh s k1 k2 r1 m2 hk', h3]
              rfl
      · rw [h3] at ht
        cases hr2 : updateRow g row2 m2 with
        | none => rw [hr2] at ht; cases ht
        | some r2 =>
          rw [hr2] at ht
          simp only [Option.map_some', Option.some.injEq] at ht
          subst ht
          rw [updateStore_store_other f fresh s k2 k1 r2 m1 hk]
          cases hu : updateStore f fresh s k1 m1 with
          | none => rfl
          | some u =>
            simp only [Option.map_some', Option.some_bind]
            rcases updateStore_effect f fresh s k1 m1 with ⟨_, _, e3⟩ | ⟨row1, _, e3⟩
            · rw [e3] at hu
              cases hu
              rw [h3, hr2]
              rfl
            · rw [e3] at hu
              cases hr : updateRow f row1 m1 with
              | none => rw [hr] at hu; cases hu
              | some r1 =>
                rw [hr] at hu
                simp only [Option.map_some', Option.some.injEq] at hu
                subst hu
                rw [updateStore_store_other g fresh s k1 k2 r1 m2 hk', h3, hr2]
                simp only [Option.map_some']
                rw [store_comm s k2 k1 r2 r1 hk']
    cases hB : updateStore g fresh s k2 m2 with
    | some t =>
      simp only [Option.some_bind]
      exact (hA t hB).symm
    | none =>
      simp only [Option.none_bind]
      cases hu : updateStore f fresh s k1 m1 with
      | none => rfl
      | some u =>
        simp only [Option.some_bind]
        rcases updateStore_effect f fresh s k1 m1 with ⟨_, _, e3⟩ | ⟨row1, _, e3⟩
        · rw [e3] at hu
          cases hu
          exact hB
        · rw [e3] at hu
          cases hr : updateRow f row1 m1 with
          | none => rw [hr] at hu; cases hu
          | some r1 =>
            rw [hr] at hu
            simp only [Option.map_some', Option.some.injEq] at hu
            subst hu
            rw [updateStore_store_other g fresh s k1 k2 r1 m2 hk', hB]
            rfl

/-- C20: for every store and every two dates `d1`, `d2` with month 1..12 and day 1..31,
`Mark d1` followed by `Mark d2` gives the same result as `Mark d2` followed by `Mark d1`
(the same keys, the same masks), and likewise for `Unmark`; on a store whose rows hold
12 masks both orders do return a store. -/
theorem mark_unmark_commute (s : BinaryCalendar) (d1 d2 : Date) (h1 : d1.valid)
    (h2 : d2.valid) :
    (Mark s d1).bind (fun t => Mark t d2) = (Mark s d2).bind (fun t => Mark t d1) ∧
    (Unmark s d1).bind (fun t => Unmark t d2) = (Unmark s d2).bind (fun t => Unmark t d1) ∧
    (Rows12 s →
      (∃ t, (Mark s d1).bind (fun t => Mark t d2) = some t) ∧
      (∃ t, (Unmark s d1).bind (fun t => Unmark t d2) = some t)) := by
  obtain ⟨m1, i1, _, hi1, hm1, hd1⟩ := valid_fields d1 h1
  obtain ⟨m2, i2, _, hi2, hm2, hd2⟩ := valid_fields d2 h2
  have eM1 : ∀ t, Mark t d1 = updateStore (fun x => x ||| 2 ^ i1)
      (some (List.replicate 12 0)) t (int16 d1.year) m1 :=
    fun t => Mark_updateStore t d1 m1 i1 hm1 hd1 (by omega)
  have eM2 : ∀ t, Mark t d2 = updateStore (fun x => x ||| 2 ^ i2)
      (some (List.replicate 12 0)) t (int16 d2.year) m2 :=
    fun t => Mark_updateStore t d2 m2 i2 hm2 hd2 (by omega)
  have eU1 : ∀ t, Unmark t d1 = updateStore (fun x => x &&& (x ^^^ 2 ^ i1)) none t
      (int16 d1.year) m1 :=
    fun t => Unmark_updateStore t d1 m1 i1 hm1 hd1 (by omega)
  have eU2 : ∀ t, Unmark t d2 = updateStore (fun x => x &&& (x ^^^ 2 ^ i2)) none t
      (int16 d2.year) m2 :=
    fun t => Unmark_updateStore t d2 m2 i2 hm2 hd2 (by omega)
  refine ⟨?_, ?_, ?_⟩
  · simp only [eM1, eM2]
    exact updateStore_comm _ _ (fun x => or_bits_comm i1 i2 x) _ s _ _ m1 m2
  · simp only [eU1, eU2]
    exact updateStore_comm _ _ (fun x => clear_bits_comm i1 i2 x) _ s _ _ m1 m2
  · intro hs
    constructor
    · obtain ⟨t1, ht1, ht12, _⟩ := Mark_bitAt s d1 hs h1
      obtain ⟨t2, ht2, _⟩ := Mark_bitAt t1 d2 ht12 h2
      exact ⟨t2, by rw [ht1]; exact ht2⟩
    · obtain ⟨t1, ht1, ht12, _⟩ := Unmark_bitAt s d1 hs h1
      obtain ⟨t2, ht2, _⟩ := Unmark_bitAt t1 d2 ht12 h2
      exact ⟨t2, by rw [ht1]; exact ht2⟩

theorem mark_unmark_commute_witness :
    Date.valid ⟨2016, 3, 14⟩ ∧ Date.valid ⟨2015, 12, 31⟩ ∧
    ((Mark exampleStore ⟨2016, 3, 14⟩).bind (fun t => Mark t ⟨2015, 12, 31⟩) =
      (Mark exampleStore ⟨2015, 12, 31⟩).bind (fun t => Mark t ⟨2016, 3, 14⟩) ∧
    (Unmark exampleStore ⟨2016, 3, 14⟩).bind (fun t => Unmark t ⟨2015, 12, 31⟩) =
      (Unmark exampleStore ⟨2015, 12, 31⟩).bind (fun t => Unmark t ⟨2016, 3, 14⟩) ∧
    (Rows12 exampleStore →
      (∃ t, (Mark exampleStore ⟨2016, 3, 14⟩).bind (fun t => Mark t ⟨2015, 12, 31⟩) =
        some t) ∧
      (∃ t, (Unmark exampleStore ⟨2016, 3, 14⟩).bind (fun t => Unmark t ⟨2015, 12, 31⟩) =
        some t))) :=
  ⟨by decide, by decide,
    mark_unmark_commute exampleStore ⟨2016, 3, 14⟩ ⟨2015, 12, 31⟩ (by decide) (by decide)⟩

end Seinfeld
